import Mathlib

/-!
# Verification of the ratmath expression parser (`src/index.js`, `src/base-parser.js`)

A shallow embedding, in Lean 4, of the literal decoders, the type-aware
promotion step, and the fragments of the recursive-descent parser of the
ratmath parser package.  Strings are embedded as `List Char`; JavaScript
`BigInt` arithmetic is embedded as `Int`/`Nat`; the exact-rational values of
the external `@ratmath/core` number library are embedded as `Rat`.
Functions that can fail (JS `throw`) return `Option`.

The external number library (`@ratmath/core`, `@ratmath/reals`) is not part
of this repository's sources; where one of its operations decides a result
we model it from the specification's contract (§6) and say so in the doc
comment of the corresponding definition.

Code branches that are unreachable for the literal shapes studied here
(e.g. base-prefix notation, transcendental functions, parenthesised
subexpressions) are embedded as an error (`none`) at the branch point, with a
comment; no theorem below depends on the behaviour of those branches.
-/

namespace RatMath

/-- ASCII decimal digit test (JS `/\d/`). -/
def isDigit (c : Char) : Bool := '0' ≤ c ∧ c ≤ '9'

/-- Value of a single decimal digit character. -/
def digitVal (c : Char) : ℕ := c.toNat - '0'.toNat

/-- Value of a run of decimal digits, most significant first:
JS `BigInt(str)` on a digit string. -/
def digitsVal (l : List Char) : ℕ := l.foldl (fun a c => 10 * a + digitVal c) 0

/-- Whitespace characters removed by the JS `\s` class (the ones relevant
to expression strings). -/
def isWS (c : Char) : Bool := c = ' ' ∨ c = '\t' ∨ c = '\n' ∨ c = '\r'

/-! ## The value domain

`Value` embeds the tagged result type of the parser: `Integer`, `Rational`
(with its `_explicitFraction` provenance flag) and `RationalInterval` (with
its `_explicitInterval` and `_skipPromotion` provenance flags).  The
number library keeps rationals reduced with positive denominator; `Rat`
matches that. -/

inductive Value where
  | int (n : ℤ)
  | rat (q : ℚ) (explicitFraction : Bool)
  | interval (lo hi : ℚ) (explicitInterval : Bool) (skipPromotion : Bool)
  deriving DecidableEq, Repr

/-- The `_skipPromotion` flag carried by a value (only intervals carry it). -/
def Value.skipPromotion : Value → Bool
  | .interval _ _ _ sp => sp
  | _ => false

/-- Every value as an exact rational (point value); used for the modelled
scalar arithmetic of the number library. -/
def Value.toRat : Value → ℚ
  | .int n => (n : ℚ)
  | .rat q _ => q
  | .interval lo _ _ _ => lo

/-- Modelled from the spec: `RationalInterval(lo, hi)` constructor of the
number library orders its endpoints ("the constructor swaps if given
reversed", §3). -/
def mkInterval (lo hi : ℚ) : Value :=
  if lo ≤ hi then .interval lo hi false false else .interval hi lo false false

/-- `Parser.#promoteType` (src/index.js 2395-2431): after each operator
step, in type-aware mode, collapse a point interval to Integer/Rational and
an integer-valued Rational to Integer, unless a provenance flag forbids it. -/
def promoteType (typeAware : Bool) (v : Value) : Value :=
  if !typeAware then v
  else
    match v with
    | .interval lo hi expl sp =>
      -- `value._skipPromotion` is checked first in the source; in this
      -- value domain only intervals carry the flag (§3 of the spec).
      if sp then v
      else if lo = hi then
        if expl then v
        else if lo.den = 1 then .int lo.num
        else .rat lo false
      else v
    | .rat q ef =>
      if q.den = 1 then
        if ef then v else .int q.num
      else v
    | .int _ => v

/-- The promotion rule as the claim describes it, amended minimally: the
collapse of a *non-integer* point interval to its Rational also requires
that the interval carry neither `explicit_interval` nor `skip_promotion`
(the claim asserted it unconditionally). -/
def promoteSpecAmended (v : Value) : Value :=
  match v with
  | .interval lo hi expl sp =>
    if lo = hi ∧ lo.den = 1 ∧ expl = false ∧ sp = false then .int lo.num
    else if lo = hi ∧ lo.den ≠ 1 ∧ expl = false ∧ sp = false then .rat lo false
    else v
  | .rat q ef => if q.den = 1 ∧ ef = false then .int q.num else v
  | .int _ => v

/-! ## String utilities (JS `split`, `trim`) -/

/-- JS `String.prototype.split(sep)` for a one-character separator:
empty fields are kept, `""` splits to `[""]`. -/
def splitChar (sep : Char) : List Char → List (List Char)
  | [] => [[]]
  | c :: rest =>
    match splitChar sep rest with
    | [] => [[]]
    | h :: t => if c = sep then [] :: h :: t else (c :: h) :: t

/-- JS `String.prototype.trim()` (whitespace only occurs at the ends of the
inputs considered here). -/
def trim (l : List Char) : List Char :=
  ((l.dropWhile isWS).reverse.dropWhile isWS).reverse

/-! ## Literal decoders: non-repeating and repeating decimals -/

/-- `parseNonRepeatingDecimal` (src/index.js 475-524): a decimal string
without `#` becomes, in non-type-aware use, the half-unit uncertainty
interval around its value; without a fractional part it stays exact. -/
def parseNonRepeatingDecimal (str : List Char) (isNegative : Bool) :
    Option Value :=
  let decimalParts := splitChar '.' str
  if decimalParts.length > 2 then none
  else
    let integerPart := if decimalParts.headD [] = [] then ['0']
      else decimalParts.headD []
    let fractionalPart := decimalParts.getD 1 []
    if ¬(integerPart ≠ [] ∧ integerPart.all isDigit ∧
        fractionalPart.all isDigit) then none
    else if fractionalPart = [] then
      -- exact integer; `new Rational(integerPart)` modelled from the
      -- spec's exact string constructor (§6)
      let q : ℚ := (digitsVal integerPart : ℚ)
      some (.rat (if isNegative then -q else q) false)
    else
      let lastDigitPlace : ℤ := 10 ^ (fractionalPart.length + 1)
      let baseValue : ℤ := (digitsVal (integerPart ++ fractionalPart) : ℤ)
      if isNegative then
        some (.interval ((-(baseValue * 10 + 5) : ℚ) / (lastDigitPlace : ℚ))
          ((-(baseValue * 10 - 5) : ℚ) / (lastDigitPlace : ℚ)) false false)
      else
        some (.interval (((baseValue * 10 - 5 : ℤ) : ℚ) / (lastDigitPlace : ℚ))
          (((baseValue * 10 + 5 : ℤ) : ℚ) / (lastDigitPlace : ℚ)) false false)

/-- The decimal split of the repeating-decimal decoder: `str.split(".")`,
`integerPart = parts[0] || "0"`, `fractionalPart = parts[1] || ""`, with the
digit-only validation of both parts (src/index.js 393-441). -/
def decimalSplit (s : List Char) : Option (List Char × List Char) :=
  let decimalParts := splitChar '.' s
  if decimalParts.length > 2 then none
  else
    let integerPart := if decimalParts.headD [] = [] then ['0']
      else decimalParts.headD []
    let fractionalPart := decimalParts.getD 1 []
    if ¬(integerPart.all isDigit ∧ fractionalPart.all isDigit) then none
    else some (integerPart, fractionalPart)

/-- The body of `parseRepeatingDecimal` after the sign has been stripped
(src/index.js 371-463): dispatch on `#`, the terminating `#0` case, and the
geometric-series formula. -/
def parseRepeatingDecimalAfterSign (s : List Char) (isNegative : Bool) :
    Option Value :=
  if '#' ∉ s then parseNonRepeatingDecimal s isNegative
  else
    match splitChar '#' s with
    | [nonRepeatingPart, repeatingPart] =>
      if ¬(repeatingPart ≠ [] ∧ repeatingPart.all isDigit) then none
      else if repeatingPart = ['0'] then
        -- repeating part "0": the decimal terminates
        match decimalSplit nonRepeatingPart with
        | none => none
        | some (integerPart, fractionalPart) =>
          let q : ℚ :=
            if fractionalPart = [] then (digitsVal integerPart : ℚ)
            else (digitsVal (integerPart ++ fractionalPart) : ℚ) /
              ((10 : ℚ) ^ fractionalPart.length)
          some (.rat (if isNegative then -q else q) false)
      else
        match decimalSplit nonRepeatingPart with
        | none => none
        | some (integerPart, fractionalPart) =>
          let n := fractionalPart.length
          let m := repeatingPart.length
          let abc : ℤ := (digitsVal
            (integerPart ++ fractionalPart ++ repeatingPart) : ℤ)
          let ab : ℤ := (digitsVal (integerPart ++ fractionalPart) : ℤ)
          let denominator : ℤ := 10 ^ n * (10 ^ m - 1)
          let q : ℚ := ((abc - ab : ℤ) : ℚ) / (denominator : ℚ)
          some (.rat (if isNegative then -q else q) false)
    | _ => none

/-- `parseRepeatingDecimal` (src/index.js 348-464).  The bracket branch
(delegating to `parseDecimalUncertainty`) and the colon branch (interval of
two endpoints) are embedded as errors: no input considered below contains
`[`, `]` or `:`. -/
def parseRepeatingDecimal (str0 : List Char) : Option Value :=
  if str0 = [] then none
  else
    let str := trim str0
    if '[' ∈ str ∧ ']' ∈ str then none
    else if ':' ∈ str then none
    else if str.headD ' ' = '-' then parseRepeatingDecimalAfterSign str.tail true
    else parseRepeatingDecimalAfterSign str false

/-! ## C9: continued-fraction coefficient parsing -/


/-- Adjacent-tilde test (JS `cfTermsStr.includes('~~')`). -/
def hasDoubleTilde : List Char → Bool
  | a :: b :: rest => (a == '~' && b == '~') || hasDoubleTilde (b :: rest)
  | _ => false

/-- The tilde-joined rendering of a term list (inverse of the `split('~')`
of the source, used to state C9). -/
def joinTilde : List (List Char) → List Char
  | [] => []
  | [t] => t
  | t :: rest => t ++ '~' :: joinTilde rest

/-- A valid continued-fraction term: a digit run denoting a positive
integer (src/index.js 3654-3663). -/
def goodTerm (t : List Char) : Bool := t ≠ [] ∧ t.all isDigit ∧ 0 < digitsVal t

/-- `Parser.parseContinuedFraction` (src/index.js 3620-3666): the regex
`^(-?\d+)\.~(.*)$` (whose `.` does not match a newline), the `x.~0` special
case, the rejection of empty/trailing-tilde/double-tilde term strings, and
the per-term positivity check. -/
def parseContinuedFraction (cfString : List Char) : Option (List ℤ) :=
  let neg := cfString.headD ' ' = '-'
  let rest0 := if neg then cfString.tail else cfString
  let digits := rest0.takeWhile isDigit
  if digits = [] then none
  else
    match rest0.dropWhile isDigit with
    | '.' :: '~' :: cfTermsStr =>
      if '\n' ∈ cfTermsStr then none
      else
        let intPart : ℤ := if neg then -(digitsVal digits : ℤ)
          else (digitsVal digits : ℤ)
        if cfTermsStr = ['0'] then some [intPart]
        else if cfTermsStr = [] then none
        else if cfTermsStr.getLast? = some '~' then none
        else if hasDoubleTilde cfTermsStr then none
        else
          let terms := splitChar '~' cfTermsStr
          if terms.all goodTerm then
            some (intPart :: terms.map (fun t => (digitsVal t : ℤ)))
          else none
    | _ => none

/-! ## C10: BaseParser.parseDefinition (src/base-parser.js) -/

/-- The character run contributed by a range `c1-c2`:
`String.fromCharCode(code)` for `code = c1 … c2` (base-parser.js 46-48). -/
def rangeChars (c1 c2 : Char) : List Char :=
  (List.range (c2.toNat + 1 - c1.toNat)).map (fun j => Char.ofNat (c1.toNat + j))

/-- The scanning loop of `BaseParser.parseDefinition` (base-parser.js
29-56): a `-` with a character on both sides (and the range end within the
string) expands to the code range; any other character is taken literally. -/
def expandRanges : List Char → Option (List Char)
  | c1 :: c2 :: c3 :: rest =>
    if c2 = '-' then
      if c1.toNat > c3.toNat then none
      else (fun tail => rangeChars c1 c3 ++ tail) <$> expandRanges rest
    else (fun tail => c1 :: tail) <$> expandRanges (c2 :: c3 :: rest)
  | c :: rest => (fun tail => c :: tail) <$> expandRanges rest
  | [] => some []

/-- `BaseParser.parseDefinition` (base-parser.js 21-69): non-empty input,
range expansion, duplicate rejection, and the minimum size of 2. -/
def parseDefinition (sequence : List Char) : Option (List Char) :=
  if sequence = [] then none
  else
    (expandRanges sequence).bind (fun characters =>
      if ¬characters.Nodup then none
      else if characters.length < 2 then none
      else some characters)

/-! ## The base-10 literal reader and the uncertainty driver (C3, C6)

`parseDecimalUncertainty` is embedded for the default decimal input base
(the base of the scaling step stays a parameter, which C3 quantifies
over). -/

/-- JS `\w` (ASCII word character). -/
def isWordChar (c : Char) : Bool :=
  ('a' ≤ c ∧ c ≤ 'z') ∨ ('A' ≤ c ∧ c ≤ 'Z') ∨ isDigit c ∨ c = '_'

/-- ASCII letter (the prefix regex `^0([a-zA-Z])`). -/
def isAsciiAlpha (c : Char) : Bool :=
  ('a' ≤ c ∧ c ≤ 'z') ∨ ('A' ≤ c ∧ c ≤ 'Z')

/-- The base-string class `[@\w./:^]` of the uncertainty regex
(src/index.js 53). -/
def isBaseClassChar (c : Char) : Bool :=
  c = '@' ∨ isWordChar c ∨ c = '.' ∨ c = '/' ∨ c = ':' ∨ c = '^'

/-- Two-character substring test (JS `includes("ab")`). -/
def hasSeq2 (a b : Char) : List Char → Bool
  | x :: y :: rest => (x = a ∧ y = b) ∨ hasSeq2 a b (y :: rest)
  | _ => false

/-- JS `String.replace(c, "")`: removes the first occurrence only. -/
def removeFirst (c : Char) : List Char → List Char
  | [] => []
  | x :: rest => if x = c then rest else x :: removeFirst c rest

/-- Modelled from the spec: `BaseSystem.isValidString` for the decimal
preset — a non-empty run of decimal digits (§4.A). -/
def isValidString10 (s : List Char) : Bool := s ≠ [] ∧ s.all isDigit

/-- Deprecated `Value[Base]` notation test (`/\[[0-9a-zA-Z]+\]$/`,
src/index.js 566). -/
def endsWithBracketBase (s : List Char) : Bool :=
  match s.reverse with
  | ']' :: rest =>
    let run := rest.takeWhile (fun c => isDigit c ∨ isAsciiAlpha c)
    run ≠ [] ∧ (rest.drop run.length).headD ' ' = '['
  | _ => false

/-- Index of the first `E`/`e` (JS `toUpperCase().indexOf("E")`,
src/index.js 617-618). -/
def findE (s : List Char) : Option ℕ :=
  s.findIdx? (fun c => c = 'E' ∨ c = 'e')

/-- Index of the first occurrence of the two-character sequence `ab`
(JS `indexOf("ab")`). -/
def findSeq2 (a b : Char) : List Char → Option ℕ
  | x :: y :: rest =>
    if x = a ∧ y = b then some 0
    else (findSeq2 a b (y :: rest)).map (· + 1)
  | _ => none

/-- A value as the exact rational of a scalar; errors on intervals (the
source converts `Integer → toRational` and rejects intervals where this is
used). -/
def Value.asScalarRat : Value → Option ℚ
  | .int n => some (n : ℚ)
  | .rat q _ => some q
  | .interval _ _ _ _ => none

/-- Exponent string of an `E`/`_^` form: optional leading `-`, then a
digit run in the base (src/index.js 636-640 and 676-681). -/
def parseExponentStr (s : List Char) : Option ℤ :=
  match s with
  | '-' :: t => if isValidString10 t then some (-(digitsVal t : ℤ)) else none
  | t => if isValidString10 t then some (digitsVal t : ℤ) else none

/-- `parseBaseNotation` (src/index.js 564-915) specialised to the decimal
input base.  The branches for registered base prefixes (`0x…`), interval
(`:`), mixed-number (`..`) and fraction (`/`) notation are embedded as
errors; no input below reaches them.  `fuel` bounds the recursion into the
mantissa of an `E` form. -/
def parseBaseNotation10 : ℕ → List Char → Bool → Option Value
  | 0, _, _ => none
  | fuel + 1, numberStr0, typeAware =>
    if endsWithBracketBase numberStr0 then none
    else
      let isNegative := numberStr0.headD ' ' = '-'
      let numberStr := if isNegative then numberStr0.tail else numberStr0
      if numberStr.headD ' ' = '0' ∧ isAsciiAlpha ((numberStr.drop 1).headD ' ')
        then none
      else
        let eSplit : Option (ℕ × ℕ) :=
          match findSeq2 '_' '^' numberStr with
          | some i => some (i, 2)
          | none =>
            match findE numberStr with
            | some i => some (i, 1)
            | none => none
        match eSplit with
        | some (i, skip) =>
          let baseNumber := numberStr.take i
          let exponentStr := numberStr.drop (i + skip)
          if ¬isValidString10 (removeFirst '-' exponentStr) then none
          else
            match parseExponentStr exponentStr with
            | none => none
            | some exponent =>
              let powerOfBase : ℚ :=
                if 0 ≤ exponent then ((10 : ℚ) ^ exponent.toNat)
                else 1 / ((10 : ℚ) ^ (-exponent).toNat)
              match parseBaseNotation10 fuel baseNumber typeAware with
              | none => none
              | some baseValue =>
                match baseValue.asScalarRat with
                | none => none
                | some baseRational =>
                  let result := baseRational * powerOfBase
                  let result := if isNegative then -result else result
                  some (if typeAware ∧ result.den = 1 then .int result.num
                    else .rat result false)
        | none =>
          if ':' ∈ numberStr then none
          else if hasSeq2 '.' '.' numberStr then none
          else if '/' ∈ numberStr then none
          else if '.' ∈ numberStr then
            match splitChar '.' numberStr with
            | [integerPart, fractionalPart] =>
              if ¬((integerPart ++ fractionalPart) ≠ [] ∧
                  (integerPart ++ fractionalPart).all isDigit) then none
              else
                let denominator : ℤ := 10 ^ fractionalPart.length
                let totalNumerator : ℤ :=
                  (digitsVal integerPart : ℤ) * denominator +
                    (digitsVal fractionalPart : ℤ)
                let result : ℚ := (totalNumerator : ℚ) / (denominator : ℚ)
                let result := if isNegative then -result else result
                some (if typeAware ∧ result.den = 1 then .int result.num
                  else .rat result false)
            | _ => none
          else
            if ¬isValidString10 numberStr then none
            else
              let v : ℤ := (digitsVal numberStr : ℤ)
              let v := if isNegative then -v else v
              some (if typeAware then .int v else .rat (v : ℚ) false)

/-- Split on the separator class `[: ,]+` and drop empty fields
(JS `split(/[: ,]+/).filter(s => s.length > 0)`, src/index.js 104, 177). -/
def isUncSep (c : Char) : Bool := c = ':' ∨ c = ' ' ∨ c = ','

/-- `splitChar` generalised to a separator predicate. -/
def splitPred (p : Char → Bool) : List Char → List (List Char)
  | [] => [[]]
  | c :: rest =>
    match splitPred p rest with
    | [] => [[]]
    | h :: t => if p c then [] :: h :: t else (c :: h) :: t

/-- The non-empty fields of the body between separators. -/
def splitUncParts (body : List Char) : List (List Char) :=
  (splitPred isUncSep body).filter (· ≠ [])

/-- `hasConfusingENotation` for the decimal input base: `E`/`e` anywhere in
the base string, or `_^` (src/index.js 115, 184). -/
def hasConfusingENotation (baseStr : List Char) : Bool :=
  'E' ∈ baseStr ∨ 'e' ∈ baseStr ∨ hasSeq2 '_' '^' baseStr

/-- `isValidForBase` of the range branch for base 10: digits after removing
the first `.` (src/index.js 120-126). -/
def isValidForBase10 (s : List Char) : Bool :=
  isValidString10 (removeFirst '.' s)

/-- The number of fractional digits of the base string: the capture of
`/\.([\w^/_]+)$/` (src/index.js 86-87). -/
def baseDecimalPlaces (baseStr : List Char) : ℕ :=
  let suf := (baseStr.reverse.takeWhile (· ≠ '.')).reverse
  if '.' ∈ baseStr ∧ suf ≠ [] ∧
      suf.all (fun c => isWordChar c ∨ c = '^' ∨ c = '/' ∨ c = '_') then
    suf.length
  else 0

/-- `parseRepeatingDecimalOrRegular` (src/index.js 288-339) for the decimal
base: a `#` string may carry a trailing `E`/`_^` scientific part applied to
the repeating-decimal value, otherwise the string goes to
`parseBaseNotation` (without `typeAware`, hence Rational results). -/
def parseRepeatingDecimalOrRegular10 (s : List Char) : Option Value :=
  if '#' ∈ s then
    let eSplit : Option (ℕ × ℕ) :=
      match findSeq2 '_' '^' s with
      | some i => some (i, 2)
      | none =>
        match findE s with
        | some i => some (i, 1)
        | none => none
    match eSplit with
    | some (i, skip) =>
      let repeatingPart := s.take i
      let exponentPart := s.drop (i + skip)
      let absExponentPart := if exponentPart.headD ' ' = '-' then
        exponentPart.tail else exponentPart
      if ¬isValidString10 absExponentPart then none
      else
        match parseRepeatingDecimal repeatingPart, parseExponentStr exponentPart with
        | some baseValue, some exponent =>
          let scale : ℚ :=
            if 0 ≤ exponent then (10 : ℚ) ^ exponent.toNat
            else 1 / ((10 : ℚ) ^ (-exponent).toNat)
          match baseValue with
          | .int n => some (.rat ((n : ℚ) * scale) false)
          | .rat q _ => some (.rat (q * scale) false)
          | .interval lo hi _ _ => some (.interval (lo * scale) (hi * scale)
              false false)
        | _, _ => none
    | none => parseRepeatingDecimal s
  else parseBaseNotation10 (s.length + 1) s false

/-- The symmetric-uncertainty step of `parseDecimalUncertainty`
(src/index.js 157-174), for an input base of size `b`: no scaling when the
base string has no fractional digits and no decimal point; otherwise the
offset is scaled by `b^-(d+1)` (`b^-d` when the offset is itself a
repeating decimal). -/
def symmetricBranchCode (b : ℕ) (baseValue : ℚ) (d : ℕ) (baseHasDot : Bool)
    (offset : ℚ) (isRepeating : Bool) : Value :=
  if d = 0 ∧ ¬baseHasDot then
    mkInterval (baseValue - offset) (baseValue + offset)
  else
    let scalePower := if isRepeating then d else d + 1
    let nextPlaceScale : ℚ := 1 / (b : ℚ) ^ scalePower
    let scaledOffset := offset * nextPlaceScale
    mkInterval (baseValue - scaledOffset) (baseValue + scaledOffset)

/-- The range branch of `parseDecimalUncertainty` (src/index.js 97-143). -/
def rangeBranch (allowIntegerRangeNotation : Bool) (baseStr body : List Char)
    (d : ℕ) : Option Value :=
  if d = 0 ∧ ¬allowIntegerRangeNotation then none
  else
    match splitUncParts body with
    | [lowerUncertainty, upperUncertainty] =>
      if hasConfusingENotation baseStr then none
      else if ¬(isValidForBase10 lowerUncertainty ∧
          isValidForBase10 upperUncertainty) then none
      else
        match parseBaseNotation10 ((baseStr ++ lowerUncertainty).length + 1)
            (baseStr ++ lowerUncertainty) true,
          parseBaseNotation10 ((baseStr ++ upperUncertainty).length + 1)
            (baseStr ++ upperUncertainty) true with
        | some lv, some uv =>
          match lv.asScalarRat, uv.asScalarRat with
          | some lowerBound, some upperBound =>
            some (if upperBound < lowerBound then
                .interval upperBound lowerBound false false
              else .interval lowerBound upperBound false false)
          | _, _ => none
        | _, _ => none
    | _ => none

/-- Offset assignment of the relative branch (src/index.js 192-206). -/
def parseRelativeOffsets : List (List Char) → Option ℚ → Option ℚ →
    Option (Option ℚ × Option ℚ)
  | [], pos, neg => some (pos, neg)
  | part :: rest, pos, neg =>
    match part with
    | '+' :: offsetStr =>
      if pos.isSome then none
      else if offsetStr = [] then none
      else
        match parseRepeatingDecimalOrRegular10 offsetStr with
        | none => none
        | some v =>
          match v.asScalarRat with
          | none => none
          | some q => parseRelativeOffsets rest (some q) neg
    | '-' :: offsetStr =>
      if neg.isSome then none
      else if offsetStr = [] then none
      else
        match parseRepeatingDecimalOrRegular10 offsetStr with
        | none => none
        | some v =>
          match v.asScalarRat with
          | none => none
          | some q => parseRelativeOffsets rest pos (some q)
    | _ => none

/-- The relative branch of `parseDecimalUncertainty`
(src/index.js 176-235), for an input base of size `b`. -/
def relativeBranch (b : ℕ) (baseStr body : List Char) (baseValue : ℚ)
    (d : ℕ) : Option Value :=
  let relativeParts := splitUncParts body
  if relativeParts.length > 2 ∨ relativeParts.length = 0 then none
  else if hasConfusingENotation baseStr then none
  else
    match parseRelativeOffsets relativeParts none none with
    | none => none
    | some (pos, neg) =>
      let positiveOffset := pos.getD 0
      let negativeOffset := neg.getD 0
      if d = 0 ∧ ¬('.' ∈ baseStr) then
        some (mkInterval (baseValue - negativeOffset)
          (baseValue + positiveOffset))
      else
        let posPart := relativeParts.find? (fun p => p.headD ' ' = '+')
        let negPart := relativeParts.find? (fun p => p.headD ' ' = '-')
        let posIsRepeating := ((posPart.getD []).drop 1).headD ' ' = '#'
        let negIsRepeating := ((negPart.getD []).drop 1).headD ' ' = '#'
        let posScalePower := if posIsRepeating then d else d + 1
        let negScalePower := if negIsRepeating then d else d + 1
        let posScale : ℚ := 1 / (b : ℚ) ^ posScalePower
        let negScale : ℚ := 1 / (b : ℚ) ^ negScalePower
        some (mkInterval (baseValue - negativeOffset * negScale)
          (baseValue + positiveOffset * posScale))

/-- The regex split of the uncertainty driver
(`/^(-?[@\w./:^]+)\[([^\]]+)\]((?:[Ee][+-]?[\w]+|\_?\^-?[\w]+)?)$/`,
src/index.js 53): base string, bracket body, optional trailing scientific
part. -/
def uncertaintySplit (s : List Char) : Option (List Char × List Char × List Char) :=
  let neg := s.headD ' ' = '-'
  let s1 := if neg then s.tail else s
  let base := s1.takeWhile isBaseClassChar
  if base = [] then none
  else
    match s1.drop base.length with
    | '[' :: rest =>
      let body := rest.takeWhile (· ≠ ']')
      if body = [] then none
      else
        match rest.drop body.length with
        | ']' :: trailing =>
          some ((if neg then ['-'] else []) ++ base, body, trailing)
        | _ => none
    | _ => none

/-- `parseDecimalUncertainty` (src/index.js 49-239), decimal input base.
A non-empty trailing scientific part (`finalize`) and the
decimal-point-range form (`parseDecimalPointUncertainty`) are embedded as
errors; no input below uses them. -/
def parseDecimalUncertainty10 (allowIntegerRangeNotation : Bool)
    (s : List Char) : Option Value :=
  match uncertaintySplit s with
  | none => none
  | some (baseStr, uncertaintyStr, trailing) =>
    if trailing ≠ [] then none
    else
      let strippedBase := if baseStr.headD ' ' = '-' then baseStr.tail
        else baseStr
      if (baseStr.getLast? = some '.' ∧ strippedBase ≠ ['.'] ∧
          strippedBase.all (fun c => isWordChar c ∨ c = '.' ∨ c = '/' ∨
            c = ':' ∨ c = '^')) ∧
          '+' ∉ uncertaintyStr ∧ '-' ∉ uncertaintyStr then none
      else
        match parseBaseNotation10 (baseStr.length + 1) baseStr true with
        | none => none
        | some baseV =>
          match baseV.asScalarRat with
          | none => none
          | some baseValue =>
            let d := baseDecimalPlaces baseStr
            if (',' ∈ uncertaintyStr ∨ ':' ∈ uncertaintyStr) ∧
                '+' ∉ uncertaintyStr ∧ '-' ∉ uncertaintyStr then
              rangeBranch allowIntegerRangeNotation baseStr uncertaintyStr d
            else if uncertaintyStr.take 2 = ['+', '-'] ∨
                uncertaintyStr.take 2 = ['-', '+'] then
              let offsetStr := uncertaintyStr.drop 2
              if offsetStr = [] then none
              else
                let isRepeating := offsetStr.headD ' ' = '#'
                match parseRepeatingDecimalOrRegular10 offsetStr with
                | none => none
                | some offV =>
                  match offV.asScalarRat with
                  | none => none
                  | some offset =>
                    some (symmetricBranchCode 10 baseValue d
                      ('.' ∈ baseStr) offset isRepeating)
            else relativeBranch 10 baseStr uncertaintyStr baseValue d

/-! ## The expression pipeline (C4, C5, C7, C8)

An embedding of `Parser.parse` for the expression fragment the remaining
claims exercise: integer and fraction literals, plain decimals, the
division/fraction whitespace disambiguation, factorials, and multiplicative
exponentiation `**` with an integer exponent.  Parenthesised groups,
function calls, base prefixes, `^`, tight scientific notation and interval
literals are embedded as errors at their branch points; no claim below
depends on them.  `fuel` bounds recursion; `parse` supplies enough for its
input. -/

/-- Modelled from the spec: exact scalar addition of the number library
(§6).  Interval operands are outside the embedded fragment. -/
def addValue : Value → Value → Option Value
  | .int n, .int m => some (.int (n + m))
  | .interval _ _ _ _, _ => none
  | _, .interval _ _ _ _ => none
  | x, y => some (.rat (x.toRat + y.toRat) false)

/-- Modelled from the spec: exact scalar subtraction (§6). -/
def subValue : Value → Value → Option Value
  | .int n, .int m => some (.int (n - m))
  | .interval _ _ _ _, _ => none
  | _, .interval _ _ _ _ => none
  | x, y => some (.rat (x.toRat - y.toRat) false)

/-- Modelled from the spec: exact scalar multiplication (§6). -/
def mulValue : Value → Value → Option Value
  | .int n, .int m => some (.int (n * m))
  | .interval _ _ _ _, _ => none
  | _, .interval _ _ _ _ => none
  | x, y => some (.rat (x.toRat * y.toRat) false)

/-- Modelled from the spec: exact scalar division (§6); division by zero
is an error. -/
def divValue : Value → Value → Option Value
  | .interval _ _ _ _, _ => none
  | _, .interval _ _ _ _ => none
  | x, y => if y.toRat = 0 then none else some (.rat (x.toRat / y.toRat) false)

/-- Modelled from the spec: the compatibility negation
`RationalInterval.point(-1).multiply(value)` (src/index.js 1933-1936);
the product is a fresh interval without flags. -/
def negateCompat : Value → Value
  | .interval lo hi _ _ => .interval (-hi) (-lo) false false
  | v => .interval (-v.toRat) (-v.toRat) false false

/-- Modelled from the spec: `RationalInterval.mpow` — multiplicative
exponentiation raises endpoint-wise, `[lo^k, hi^k]` possibly swapped for
negative `k` (§4.C, §6). -/
def mpowQ (lo hi : ℚ) (k : ℤ) : ℚ × ℚ :=
  if 0 ≤ k then (lo ^ k, hi ^ k) else (hi ^ k, lo ^ k)

/-- The `**` step with an integer exponent (src/index.js 2318-2334 and
2111-2125): the base is coerced to a point interval, `mpow` is applied, and
the result is marked `_skipPromotion`. -/
def starStarStep (v : Value) (k : ℤ) : Value :=
  let p : ℚ × ℚ := match v with
    | .interval lo hi _ _ => (lo, hi)
    | w => (w.toRat, w.toRat)
  let r := mpowQ p.1 p.2 k
  .interval r.1 r.2 false true

/-- Modelled from the spec: `Integer.factorial`, an error on negative
operands (§4.C; pinned by the tests on `(-1)!`). -/
def libFactorial (n : ℤ) : Option ℤ :=
  if 0 ≤ n then some (Nat.factorial n.toNat) else none

/-- Double factorial on naturals. -/
def doubleFactNat : ℕ → ℕ
  | 0 => 1
  | 1 => 1
  | n + 2 => (n + 2) * doubleFactNat n

/-- Modelled from the spec: `Integer.doubleFactorial`, an error on negative
operands (§4.C; pinned by the tests on `(-1)!!`). -/
def libDoubleFactorial (n : ℤ) : Option ℤ :=
  if 0 ≤ n then some (doubleFactNat n.toNat) else none

/-- The single-factorial step of `#parseFactor` (src/index.js 2175-2213):
defined for an `Integer`, an integer-valued `Rational`, or an
integer-valued point interval; anything else is an error. -/
def factorialStep (v : Value) : Option Value :=
  match v with
  | .int n => (libFactorial n).map (fun m => .int m)
  | .rat q _ =>
    if q.den = 1 then (libFactorial q.num).map (fun m => .rat (m : ℚ) false)
    else none
  | .interval lo hi _ _ =>
    if lo = hi ∧ lo.den = 1 then
      (libFactorial lo.num).map (fun m => .interval (m : ℚ) (m : ℚ) false false)
    else none

/-- The double-factorial step of `#parseFactor` (src/index.js 2134-2174). -/
def doubleFactorialStep (v : Value) : Option Value :=
  match v with
  | .int n => (libDoubleFactorial n).map (fun m => .int m)
  | .rat q _ =>
    if q.den = 1 then
      (libDoubleFactorial q.num).map (fun m => .rat (m : ℚ) false)
    else none
  | .interval lo hi _ _ =>
    if lo = hi ∧ lo.den = 1 then
      (libDoubleFactorial lo.num).map
        (fun m => .interval (m : ℚ) (m : ℚ) false false)
    else none

/-- `#parseExponent` (src/index.js 2349-2382): a signed digit run; zero is
an error ("requires at least one factor"). -/
def parseExponent (expr : List Char) : Option (ℤ × List Char) :=
  let isNeg := expr.headD ' ' = '-'
  let e1 := if isNeg then expr.tail else expr
  let digits := e1.takeWhile isDigit
  if digits = [] then none
  else
    let exponent : ℤ :=
      if isNeg then -(digitsVal digits : ℤ) else (digitsVal digits : ℤ)
    if exponent = 0 then none
    else some (exponent, e1.drop digits.length)

/-- The decimal value of an exact decimal string `int.frac` (both digit
runs), as produced by the number library's string constructor. -/
def decimalStringVal (ip fp : List Char) : ℚ :=
  ((digitsVal ip : ℚ) * (10 : ℚ) ^ fp.length + (digitsVal fp : ℚ)) /
    (10 : ℚ) ^ fp.length

/-- First `.` is followed by a character other than `.`
(the decimal-branch guard of `#parseRational`, src/index.js 3369-3374). -/
def hasDecimalHead (l : List Char) : Bool :=
  match l.dropWhile (· ≠ '.') with
  | '.' :: c :: _ => c ≠ '.'
  | _ => false

/-- `#parseRational` (src/index.js 3069-3568) for the embedded fragment:
sign, digit run, optional `/denominator` with the `S` whitespace marker
(division, not fraction) and the `(`-denominator early return.  The base
prefix, input-base, repeating-decimal and plain-decimal heads are embedded
as errors (the decimal head is consumed earlier by `#parseInterval` for the
inputs treated here); mixed numbers (`..`) are not modelled. -/
def parseRationalEmb (expr : List Char) : Option (Value × List Char) :=
  -- trim omitted: the input is whitespace-free after `Parser.parse`
  let stripped := if expr.headD ' ' = '-' then expr.tail else expr
  if stripped.headD ' ' = '0' ∧ isAsciiAlpha ((stripped.drop 1).headD ' ')
    then none
  else if '#' ∈ expr then none
  else if hasDecimalHead expr then none
  else
    let isNegative := expr.headD ' ' = '-'
    let e1 := if isNegative then expr.tail else expr
    let numeratorStr := e1.takeWhile isDigit
    if numeratorStr = [] then none
    else
      let rest := e1.drop numeratorStr.length
      if rest.take 2 = ['.', '.'] then none
      else
        let numerator : ℤ :=
          if isNegative then -(digitsVal numeratorStr : ℤ)
          else (digitsVal numeratorStr : ℤ)
        match rest with
        | '/' :: rest2 =>
          if rest2.headD ' ' = 'S' then
            -- whitespace after `/`: division, not a fraction; the `/` stays
            -- in the remaining expression (src/index.js 3470-3483)
            some (.rat (numerator : ℚ) false, '/' :: rest2)
          else if rest2.headD ' ' = '(' then
            some (.rat (numerator : ℚ) false, '/' :: rest2)
          else
            let denominatorStr := rest2.takeWhile isDigit
            if denominatorStr = [] then none
            else
              let rest3 := rest2.drop denominatorStr.length
              if rest3.headD ' ' = 'E' then none
              else
                let denominator : ℤ := (digitsVal denominatorStr : ℤ)
                if denominator = 0 then none
                else
                  some (.rat ((numerator : ℚ) / (denominator : ℚ))
                    (denominator = 1), rest3)
        | _ => some (.rat (numerator : ℚ) false, rest)

/-- The scalar-return tail of `#parseInterval` (src/index.js 2934-3017):
type-aware promotion of an unflagged whole-number Rational to Integer, or
the point-interval coercion in compatibility mode.  The
`E`-before-colon scan and the explicit `:` interval are embedded as
errors. -/
def parseIntervalTail (typeAware : Bool) (expr : List Char) :
    Option (Value × List Char) :=
  match parseRationalEmb expr with
  | none => none
  | some (firstValue, rem) =>
    if rem.headD ' ' = 'E' then none
    else if rem.headD ' ' = ':' then none
    else if typeAware then
      match firstValue with
      | .rat q ef =>
        if q.den = 1 then
          if ef then some (.rat q ef, rem) else some (.int q.num, rem)
        else some (.rat q ef, rem)
      | v => some (v, rem)
    else some (.interval firstValue.toRat firstValue.toRat false false, rem)

/-- `#parseInterval` (src/index.js 2602-3062) for the embedded fragment:
the simple-decimal branch (exact Rational when type-aware,
`parseNonRepeatingDecimal` otherwise) and the scalar tail.  Uncertainty
brackets, continued fractions and repeating-decimal intervals are embedded
as errors. -/
def parseIntervalEmb (typeAware : Bool) (expr : List Char) :
    Option (Value × List Char) :=
  if '[' ∈ expr then none
  else if hasSeq2 '.' '~' expr then none
  else if '.' ∈ expr ∧ '#' ∉ expr ∧ ':' ∉ expr then
    -- simple decimal scan (src/index.js 2695-2760)
    let neg := expr.headD ' ' = '-'
    let e1 := if neg then expr.tail else expr
    let ip := e1.takeWhile isDigit
    let r1 := e1.drop ip.length
    match r1 with
    | '.' :: r2 =>
      if r2.headD ' ' = '.' ∨ r2 = [] then parseIntervalTail typeAware expr
      else
        let fp := r2.takeWhile isDigit
        let remaining := r2.drop fp.length
        if typeAware then
          -- `new Rational(decimalStr)`: modelled from the spec's exact
          -- string constructor (§6)
          if ip = [] ∧ fp = [] then parseIntervalTail typeAware expr
          else
            let q := decimalStringVal ip fp
            some (.rat (if neg then -q else q) false, remaining)
        else
          match parseNonRepeatingDecimal (ip ++ '.' :: fp) neg with
          | none => parseIntervalTail typeAware expr
          | some v => some (v, remaining)
    | _ => parseIntervalTail typeAware expr
  else if '#' ∈ expr ∧ ':' ∈ expr then none
  else parseIntervalTail typeAware expr

/-- `#parseFactor` (src/index.js 1079-2343) for the embedded fragment:
unary minus, the literal dispatch, factorials, and `**` with an integer
exponent.  Parenthesised groups, function names, uncertainty brackets,
tight scientific notation, `^`, and fractional `**` exponents are embedded
as errors. -/
def parseFactorEmb : ℕ → Bool → List Char → Option (Value × List Char)
  | 0, _, _ => none
  | fuel + 1, typeAware, expr =>
    if expr = [] then none
    else if expr.headD ' ' = '(' then none
    else if '[' ∈ expr ∧ ']' ∈ expr then none
    else if expr.headD ' ' = '-' ∧ '[' ∉ expr ∧ ':' ∉ expr then
      match parseFactorEmb fuel typeAware expr.tail with
      | none => none
      | some (v, rem) =>
        let negated : Value :=
          match typeAware, v with
          | true, .int n => .int (-n)
          | true, .rat q ef => .rat (-q) ef
          | _, w => negateCompat w
        some (negated, rem)
    else
      match parseIntervalEmb typeAware expr with
      | none => none
      | some (numberValue, rem) =>
        if rem.headD ' ' = 'E' ∨ rem.take 2 = ['T', 'E'] ∨
            rem.take 2 = ['_', '^'] then none
        else
          let factRes : Option (Value × List Char) :=
            if rem.take 2 = ['!', '!'] then
              match doubleFactorialStep numberValue with
              | none => none
              | some w => some (w, rem.drop 2)
            else if rem.headD ' ' = '!' then
              match factorialStep numberValue with
              | none => none
              | some w => some (w, rem.drop 1)
            else some (numberValue, rem)
          match factRes with
          | none => none
          | some (fv, frem) =>
            if frem.headD ' ' = '^' then none
            else if frem.take 2 = ['*', '*'] then
              match parseExponent (frem.drop 2) with
              | none => none
              | some (k, prem) => some (starStarStep fv k, prem)
            else some (fv, frem)

/-- The `* / E` loop of `#parseTerm` (src/index.js 996-1067); the `E`
operator is outside the embedded fragment. -/
def parseTermLoop : ℕ → Bool → Value → List Char → Option (Value × List Char)
  | 0, _, _, _ => none
  | fuel + 1, typeAware, acc, cur =>
    if cur.take 2 = ['T', 'E'] then none
    else if cur.headD ' ' = 'E' then none
    else if cur.headD ' ' = '*' then
      match parseFactorEmb fuel typeAware cur.tail with
      | none => none
      | some (w, rem) =>
        match mulValue acc w with
        | none => none
        | some acc2 => parseTermLoop fuel typeAware acc2 rem
    else if cur.headD ' ' = '/' then
      let cur2 := cur.tail
      let cur3 := if cur2.headD ' ' = 'S' then cur2.tail else cur2
      match parseFactorEmb fuel typeAware cur3 with
      | none => none
      | some (w, rem) =>
        match divValue acc w with
        | none => none
        | some acc2 => parseTermLoop fuel typeAware acc2 rem
    else some (acc, cur)

/-- `#parseTerm` (src/index.js 992-1073): factor, operator loop, then the
promotion step. -/
def parseTermEmb (fuel : ℕ) (typeAware : Bool) (expr : List Char) :
    Option (Value × List Char) :=
  match parseFactorEmb fuel typeAware expr with
  | none => none
  | some (v, rem) =>
    match parseTermLoop fuel typeAware v rem with
    | none => none
    | some (v2, rem2) => some (promoteType typeAware v2, rem2)

/-- The `+ -` loop of `#parseExpression` (src/index.js 965-980). -/
def parseExpressionLoop : ℕ → Bool → Value → List Char →
    Option (Value × List Char)
  | 0, _, _, _ => none
  | fuel + 1, typeAware, acc, cur =>
    if cur.headD ' ' = '+' then
      match parseTermEmb fuel typeAware cur.tail with
      | none => none
      | some (w, rem) =>
        match addValue acc w with
        | none => none
        | some acc2 => parseExpressionLoop fuel typeAware acc2 rem
    else if cur.headD ' ' = '-' then
      match parseTermEmb fuel typeAware cur.tail with
      | none => none
      | some (w, rem) =>
        match subValue acc w with
        | none => none
        | some acc2 => parseExpressionLoop fuel typeAware acc2 rem
    else some (acc, cur)

/-- `#parseExpression` (src/index.js 961-986). -/
def parseExpressionEmb (fuel : ℕ) (typeAware : Bool) (expr : List Char) :
    Option (Value × List Char) :=
  match parseTermEmb fuel typeAware expr with
  | none => none
  | some (v, rem) =>
    match parseExpressionLoop fuel typeAware v rem with
    | none => none
    | some (v2, rem2) => some (promoteType typeAware v2, rem2)

/-- `" E" → "TE"` (src/index.js 938): the left-to-right global regex
replacement. -/
def replaceSpaceE : List Char → List Char
  | [] => []
  | [c] => [c]
  | c :: y :: rest =>
    if c = ' ' ∧ y = 'E' then 'T' :: 'E' :: replaceSpaceE rest
    else c :: replaceSpaceE (y :: rest)

/-- `"/ " → "/S"` (src/index.js 942). -/
def replaceSlashSpace : List Char → List Char
  | [] => []
  | [c] => [c]
  | c :: y :: rest =>
    if c = '/' ∧ y = ' ' then '/' :: 'S' :: replaceSlashSpace rest
    else c :: replaceSlashSpace (y :: rest)

/-- `Parser.parse` (src/index.js 928-955): empty check, the two whitespace
sentinels, whitespace removal, expression parse, trailing-garbage check. -/
def parse (typeAware : Bool) (expression : List Char) : Option Value :=
  if expression = [] ∨ trim expression = [] then none
  else
    let e1 := replaceSlashSpace (replaceSpaceE expression)
    let e2 := e1.filter (fun c => ¬isWS c)
    match parseExpressionEmb (e2.length + 2) typeAware e2 with
    | none => none
    | some (v, rem) => if rem = [] then some v else none

/-- The promoted scalar of an exact rational: `Integer` when whole,
`Rational` otherwise (used to state C4 and C7). -/
def scalarOfRat (q : ℚ) : Value :=
  if q.den = 1 then .int q.num else .rat q false

/-- Character-class hypotheses on the remainder after a digit run: the
remainder opens with none of the characters that would extend the literal
or divert the dispatch. -/
def TailOk (rest : List Char) : Prop :=
  '#' ∉ rest ∧ '.' ∉ rest ∧ '[' ∉ rest ∧ ':' ∉ rest ∧
  (rest = [] ∨ (isDigit (rest.headD ' ') = false ∧
    isAsciiAlpha (rest.headD ' ') = false ∧ rest.headD ' ' ≠ '/' ∧
    rest.headD ' ' ≠ 'E'))

/-- The domain of the factorial operators as the spec states it: a
non-negative integer — an `Integer`, an integer-valued `Rational`, or a
point interval on a non-negative integer (spec §4.C). -/
def nonnegIntegerOperand : Value → Prop
  | .int n => 0 ≤ n
  | .rat q _ => q.den = 1 ∧ 0 ≤ q.num
  | .interval lo hi _ _ => lo = hi ∧ lo.den = 1 ∧ 0 ≤ lo.num

theorem digitsVal_aux (l : List Char) (a : ℕ) :
    l.foldl (fun a c => 10 * a + digitVal c) a
      = a * 10 ^ l.length + digitsVal l := by
  induction l generalizing a with
  | nil => simp [digitsVal]
  | cons c t ih =>
    simp only [List.foldl_cons, digitsVal, List.length_cons]
    rw [ih, ih (10 * 0 + digitVal c)]
    ring

theorem digitsVal_append (xs ys : List Char) :
    digitsVal (xs ++ ys) = digitsVal xs * 10 ^ ys.length + digitsVal ys := by
  unfold digitsVal
  rw [List.foldl_append, digitsVal_aux]
  rfl

theorem splitChar_ne_nil (sep : Char) (l : List Char) : splitChar sep l ≠ [] := by
  cases l with
  | nil => simp [splitChar]
  | cons c rest =>
    simp only [splitChar]
    cases splitChar sep rest with
    | nil => simp
    | cons h t =>
      by_cases hc : c = sep <;> simp [hc]

theorem splitChar_not_mem {sep : Char} {l : List Char} (h : sep ∉ l) :
    splitChar sep l = [l] := by
  induction l with
  | nil => rfl
  | cons c rest ih =>
    simp only [List.mem_cons, not_or] at h
    have hc : ¬c = sep := fun e => h.1 e.symm
    simp only [splitChar, ih h.2, if_neg hc]

theorem splitChar_append {sep : Char} {xs : List Char} (ys : List Char)
    (h : sep ∉ xs) :
    splitChar sep (xs ++ sep :: ys) = xs :: splitChar sep ys := by
  induction xs with
  | nil =>
    simp only [List.nil_append, splitChar]
    cases hz : splitChar sep ys with
    | nil => exact absurd hz (splitChar_ne_nil sep ys)
    | cons a t => simp
  | cons c rest ih =>
    simp only [List.mem_cons, not_or] at h
    have hc : ¬c = sep := fun e => h.1 e.symm
    simp only [List.cons_append, splitChar, List.append_eq, ih h.2, if_neg hc]

theorem dropWhile_eq_self_of {p : Char → Bool} {l : List Char}
    (h : ∀ c ∈ l, p c = false) : l.dropWhile p = l := by
  cases l with
  | nil => rfl
  | cons c rest => simp [List.dropWhile, h c (List.mem_cons_self c rest)]

theorem trim_eq_self {l : List Char} (h : ∀ c ∈ l, isWS c = false) :
    trim l = l := by
  unfold trim
  rw [dropWhile_eq_self_of h, dropWhile_eq_self_of
    (fun c hc => h c (List.mem_reverse.1 hc)), List.reverse_reverse]

/-! ## Facts about digit characters -/

theorem isDigit_ne {c x : Char} (h : isDigit c = true) (hx : isDigit x = false) :
    c ≠ x := by
  intro e; rw [e, hx] at h; cases h

theorem not_mem_of_all_digits {x : Char} (hx : isDigit x = false)
    {l : List Char} (h : l.all isDigit = true) : x ∉ l := by
  intro hm
  have := List.all_eq_true.1 h x hm
  rw [hx] at this; cases this

theorem isWS_false_of_isDigit {c : Char} (h : isDigit c = true) :
    isWS c = false := by
  by_contra h'
  have hws : isWS c = true := by simpa using h'
  have : c = ' ' ∨ c = '\t' ∨ c = '\n' ∨ c = '\r' := by
    simpa [isWS] using hws
  rcases this with e | e | e | e <;> (subst e; exact absurd h (by decide))

theorem headD_append_of_ne_nil {l t : List Char} (h : l ≠ []) (d : Char) :
    (l ++ t).headD d = l.headD d := by
  cases l with
  | nil => exact absurd rfl h
  | cons a r => rfl

/-! ## C1: the repeating-decimal formula -/

theorem mem_lit_decomp {c : Char} {pre I F tail : List Char}
    (hc : c ∈ pre ++ I ++ '.' :: F ++ tail) :
    c ∈ pre ∨ c ∈ I ∨ c = '.' ∨ c ∈ F ∨ c ∈ tail := by
  simp only [List.mem_append, List.mem_cons] at hc
  tauto

theorem decimalSplit_of_digits {I F : List Char} (hI1 : I ≠ [])
    (hI : I.all isDigit = true) (hF : F.all isDigit = true) :
    decimalSplit (I ++ '.' :: F) = some (I, F) := by
  have hdotI : '.' ∉ I := not_mem_of_all_digits (by decide) hI
  have hdotF : '.' ∉ F := not_mem_of_all_digits (by decide) hF
  have hsplit : splitChar '.' (I ++ '.' :: F) = [I, F] := by
    rw [splitChar_append F hdotI, splitChar_not_mem hdotF]
  simp [decimalSplit, hsplit, hI1, hI, hF]

theorem afterSign_repeating (b : Bool) {I F R : List Char}
    (hI1 : I ≠ []) (hI : I.all isDigit = true) (hF : F.all isDigit = true)
    (hR1 : R ≠ []) (hR : R.all isDigit = true) (hR0 : R ≠ ['0']) :
    parseRepeatingDecimalAfterSign (I ++ '.' :: (F ++ '#' :: R)) b
      = some (.rat ((if b then (-1 : ℚ) else 1) *
          (((digitsVal (I ++ F ++ R) : ℚ) - (digitsVal (I ++ F) : ℚ)) /
            ((10 : ℚ) ^ (F.length + R.length) - (10 : ℚ) ^ F.length))) false) := by
  have hhashI : '#' ∉ I := not_mem_of_all_digits (by decide) hI
  have hhashF : '#' ∉ F := not_mem_of_all_digits (by decide) hF
  have hhashR : '#' ∉ R := not_mem_of_all_digits (by decide) hR
  have hsplitHash : splitChar '#' (I ++ '.' :: (F ++ '#' :: R)) = [I ++ '.' :: F, R] := by
    have he : I ++ '.' :: (F ++ '#' :: R) = (I ++ '.' :: F) ++ '#' :: R := by simp
    rw [he, splitChar_append R, splitChar_not_mem hhashR]
    intro hm
    rcases List.mem_append.1 hm with hm | hm
    · exact hhashI hm
    · rcases List.mem_cons.1 hm with hm | hm
      · cases hm
      · exact hhashF hm
  have hhash : '#' ∈ I ++ '.' :: (F ++ '#' :: R) := by simp
  rw [parseRepeatingDecimalAfterSign, if_neg (by simp), hsplitHash]
  simp only [decimalSplit_of_digits hI1 hI hF]
  rw [if_neg (by simp [hR1, hR]), if_neg hR0]
  cases b <;>
    · simp only [if_true, if_false, Bool.false_eq_true, one_mul, neg_one_mul,
        Option.some.injEq, Value.rat.injEq, and_true]
      push_cast
      rw [pow_add]
      ring

theorem afterSign_terminating (b : Bool) {I F : List Char}
    (hI1 : I ≠ []) (hI : I.all isDigit = true) (hF : F.all isDigit = true) :
    parseRepeatingDecimalAfterSign (I ++ '.' :: (F ++ ['#', '0'])) b
      = some (.rat ((if b then (-1 : ℚ) else 1) *
          ((digitsVal (I ++ F) : ℚ) / (10 : ℚ) ^ F.length)) false) := by
  have hhashI : '#' ∉ I := not_mem_of_all_digits (by decide) hI
  have hhashF : '#' ∉ F := not_mem_of_all_digits (by decide) hF
  have hsplitHash : splitChar '#' (I ++ '.' :: (F ++ ['#', '0'])) = [I ++ '.' :: F, ['0']] := by
    have he : I ++ '.' :: (F ++ ['#', '0']) = (I ++ '.' :: F) ++ '#' :: ['0'] := by simp
    rw [he, splitChar_append ['0'], splitChar_not_mem (by decide)]
    intro hm
    rcases List.mem_append.1 hm with hm | hm
    · exact hhashI hm
    · rcases List.mem_cons.1 hm with hm | hm
      · cases hm
      · exact hhashF hm
  have hhash : '#' ∈ I ++ '.' :: (F ++ ['#', '0']) := by simp
  rw [parseRepeatingDecimalAfterSign, if_neg (by simp), hsplitHash]
  simp only [decimalSplit_of_digits hI1 hI hF]
  by_cases hFnil : F = []
  · subst hFnil
    cases b <;> simp +decide
  · cases b <;> simp +decide [hFnil]

theorem parseRepeatingDecimal_eval (b : Bool) {I T : List Char}
    (hI1 : I ≠ []) (hI : I.all isDigit = true)
    (hT : ∀ c ∈ T, isWS c = false ∧ c ≠ '[' ∧ c ≠ ':') :
    parseRepeatingDecimal ((if b then ['-'] else []) ++ I ++ T)
      = parseRepeatingDecimalAfterSign (I ++ T) b := by
  have hdI := fun c hc => List.all_eq_true.1 hI c hc
  have hIT : ∀ c ∈ I ++ T, isWS c = false ∧ c ≠ '[' ∧ c ≠ ':' := by
    intro c hc
    rcases List.mem_append.1 hc with h | h
    · have hd := hdI c h
      exact ⟨isWS_false_of_isDigit hd,
        isDigit_ne hd (by decide), isDigit_ne hd (by decide)⟩
    · exact hT c h
  have hIheadD : (I ++ T).headD ' ' ≠ '-' := by
    cases I with
    | nil => exact absurd rfl hI1
    | cons a t =>
      simpa using isDigit_ne (hdI a (List.mem_cons_self a t)) (by decide)
  cases b with
  | false =>
    simp only [Bool.false_eq_true, if_false, List.nil_append]
    rw [parseRepeatingDecimal, if_neg (by simp [hI1])]
    rw [trim_eq_self (fun c hc => (hIT c hc).1)]
    rw [if_neg (fun hand => ((hIT _ hand.1).2.1 rfl)),
      if_neg (fun hm => ((hIT _ hm).2.2 rfl)), if_neg hIheadD]
  | true =>
    simp only [if_true, List.singleton_append]
    rw [parseRepeatingDecimal, if_neg (by simp)]
    rw [List.cons_append, trim_eq_self (fun c hc => by
      rcases List.mem_cons.1 hc with h | h
      · subst h; decide
      · exact (hIT c h).1)]
    rw [if_neg (fun hand => by
      rcases List.mem_cons.1 hand.1 with h | h
      · cases h
      · exact (hIT _ h).2.1 rfl)]
    rw [if_neg (fun hm => by
      rcases List.mem_cons.1 hm with h | h
      · cases h
      · exact (hIT _ h).2.2 rfl)]
    simp only [List.headD_cons, List.tail_cons]
    simp

/-- **C1.** For every input of the form `integer.fractional#repeat` (decimal
digit runs, repeat not `"0"`), `parseRepeatingDecimal` returns the exact
rational `(concat(I,F,R) − concat(I,F)) / (10^(|F|+|R|) − 10^|F|)`, a
leading `-` negating the result; and when the repeat part is `"0"` it
returns the terminating rational with decimal expansion `integer.fractional`. -/
theorem claim_C1_repeating_decimal_formula
    (neg : Bool) (I F R : List Char)
    (hI1 : I ≠ []) (hI : I.all isDigit = true) (hF : F.all isDigit = true)
    (hR1 : R ≠ []) (hR : R.all isDigit = true) (hR0 : R ≠ ['0']) :
    parseRepeatingDecimal
        ((if neg then ['-'] else []) ++ I ++ '.' :: (F ++ '#' :: R))
      = some (.rat ((if neg then (-1 : ℚ) else 1) *
          (((digitsVal (I ++ F ++ R) : ℚ) - (digitsVal (I ++ F) : ℚ)) /
            ((10 : ℚ) ^ (F.length + R.length) - (10 : ℚ) ^ F.length))) false) ∧
    parseRepeatingDecimal
        ((if neg then ['-'] else []) ++ I ++ '.' :: (F ++ ['#', '0']))
      = some (.rat ((if neg then (-1 : ℚ) else 1) *
          ((digitsVal (I ++ F) : ℚ) / (10 : ℚ) ^ F.length)) false) := by
  have hgood : ∀ c : Char, isDigit c = true → isWS c = false ∧ c ≠ '[' ∧ c ≠ ':' :=
    fun c hd => ⟨isWS_false_of_isDigit hd, isDigit_ne hd (by decide),
      isDigit_ne hd (by decide)⟩
  have hdF := fun c hc => List.all_eq_true.1 hF c hc
  have hdR := fun c hc => List.all_eq_true.1 hR c hc
  have hT : ∀ c ∈ '.' :: (F ++ '#' :: R), isWS c = false ∧ c ≠ '[' ∧ c ≠ ':' := by
    intro c hc
    rcases List.mem_cons.1 hc with h | h
    · subst h; exact ⟨by decide, by decide, by decide⟩
    · rcases List.mem_append.1 h with h | h
      · exact hgood c (hdF c h)
      · rcases List.mem_cons.1 h with h | h
        · subst h; exact ⟨by decide, by decide, by decide⟩
        · exact hgood c (hdR c h)
  have hT0 : ∀ c ∈ '.' :: (F ++ ['#', '0']), isWS c = false ∧ c ≠ '[' ∧ c ≠ ':' := by
    intro c hc
    rcases List.mem_cons.1 hc with h | h
    · subst h; exact ⟨by decide, by decide, by decide⟩
    · rcases List.mem_append.1 h with h | h
      · exact hgood c (hdF c h)
      · rcases List.mem_cons.1 h with h | h
        · subst h; exact ⟨by decide, by decide, by decide⟩
        · rcases List.mem_cons.1 h with h | h
          · subst h; exact ⟨by decide, by decide, by decide⟩
          · cases h
  constructor
  · rw [parseRepeatingDecimal_eval neg hI1 hI hT]
    exact afterSign_repeating neg hI1 hI hF hR1 hR hR0
  · rw [parseRepeatingDecimal_eval neg hI1 hI hT0]
    exact afterSign_terminating neg hI1 hI hF

/-- Witness for C1 at the concrete input `0.12#45` (and `0.12#0`). -/
theorem claim_C1_witness :
    parseRepeatingDecimal
        ((if false then ['-'] else []) ++ ['0'] ++ '.' :: (['1', '2'] ++ '#' :: ['4', '5']))
      = some (.rat ((if false then (-1 : ℚ) else 1) *
          (((digitsVal (['0'] ++ ['1', '2'] ++ ['4', '5']) : ℚ) -
              (digitsVal (['0'] ++ ['1', '2']) : ℚ)) /
            ((10 : ℚ) ^ (['1', '2'].length + ['4', '5'].length) -
              (10 : ℚ) ^ ['1', '2'].length))) false) ∧
    parseRepeatingDecimal
        ((if false then ['-'] else []) ++ ['0'] ++ '.' :: (['1', '2'] ++ ['#', '0']))
      = some (.rat ((if false then (-1 : ℚ) else 1) *
          ((digitsVal (['0'] ++ ['1', '2']) : ℚ) / (10 : ℚ) ^ ['1', '2'].length)) false) :=
  claim_C1_repeating_decimal_formula false ['0'] ['1', '2'] ['4', '5']
    (by decide) (by decide) (by decide) (by decide) (by decide) (by decide)

theorem splitChar_joinTilde {terms : List (List Char)} (h1 : terms ≠ [])
    (h2 : ∀ t ∈ terms, '~' ∉ t) :
    splitChar '~' (joinTilde terms) = terms := by
  induction terms with
  | nil => exact absurd rfl h1
  | cons t rest ih =>
    cases rest with
    | nil => exact splitChar_not_mem (h2 t (List.mem_cons_self t []))
    | cons u more =>
      rw [show joinTilde (t :: u :: more) = t ++ '~' :: joinTilde (u :: more)
          from rfl,
        splitChar_append _ (h2 t (List.mem_cons_self t _)),
        ih (by simp) (fun v hv => h2 v (List.mem_cons_of_mem t hv))]

theorem hasDoubleTilde_cons₂ (a b : Char) (l : List Char) :
    hasDoubleTilde (a :: b :: l) = ((a == '~' && b == '~') || hasDoubleTilde (b :: l)) := rfl

theorem hasDoubleTilde_of_not_mem {l : List Char} (h : '~' ∉ l) :
    hasDoubleTilde l = false := by
  induction l with
  | nil => rfl
  | cons a t ih =>
    cases t with
    | nil => rfl
    | cons b r =>
      have ha : ¬(a = '~') := fun e => h (by simp [e])
      rw [hasDoubleTilde_cons₂, ih (fun hm => h (List.mem_cons_of_mem a hm))]
      simp [ha]

theorem hasDoubleTilde_sep {t rest : List Char} (ht : '~' ∉ t)
    (hne : rest ≠ []) (hhead : rest.headD ' ' ≠ '~')
    (hrest : hasDoubleTilde rest = false) :
    hasDoubleTilde (t ++ '~' :: rest) = false := by
  induction t with
  | nil =>
    cases rest with
    | nil => exact absurd rfl hne
    | cons b r =>
      have hb : ¬(b = '~') := by simpa using hhead
      rw [List.nil_append, hasDoubleTilde_cons₂, hrest]
      simp [hb]
  | cons a t' ih =>
    have ha : ¬(a = '~') := fun e => ht (by simp [e])
    have ih' := ih (fun hm => ht (List.mem_cons_of_mem a hm))
    cases he : t' ++ '~' :: rest with
    | nil => simp at he
    | cons b r =>
      rw [List.cons_append, he, hasDoubleTilde_cons₂, ← he, ih']
      simp [ha]

theorem joinTilde_headD {u : List Char} (more : List (List Char))
    (hu : u ≠ []) : (joinTilde (u :: more)).headD ' ' = u.headD ' ' := by
  cases more with
  | nil => rfl
  | cons v r =>
    rw [show joinTilde (u :: v :: r) = u ++ '~' :: joinTilde (v :: r) from rfl]
    exact headD_append_of_ne_nil hu ' '

theorem joinTilde_facts {terms : List (List Char)} (h1 : terms ≠ [])
    (h2 : ∀ t ∈ terms, t ≠ [] ∧ t.all isDigit = true) :
    joinTilde terms ≠ [] ∧
    (joinTilde terms).getLast? ≠ some '~' ∧
    hasDoubleTilde (joinTilde terms) = false ∧
    '\n' ∉ joinTilde terms ∧
    (joinTilde terms).headD ' ' ≠ '~' := by
  induction terms with
  | nil => exact absurd rfl h1
  | cons t rest ih =>
    have htne := (h2 t (List.mem_cons_self t rest)).1
    have htd := (h2 t (List.mem_cons_self t rest)).2
    have hdt := fun c hc => List.all_eq_true.1 htd c hc
    have htilde : '~' ∉ t := not_mem_of_all_digits (by decide) htd
    have hnl : '\n' ∉ t := not_mem_of_all_digits (by decide) htd
    have hheadt : t.headD ' ' ≠ '~' := by
      cases t with
      | nil => exact absurd rfl htne
      | cons a r => exact isDigit_ne (hdt a (List.mem_cons_self a r)) (by decide)
    cases rest with
    | nil =>
      refine ⟨htne, ?_, hasDoubleTilde_of_not_mem htilde, hnl, hheadt⟩
      intro hlast
      rw [show joinTilde [t] = t from rfl,
        List.getLast?_eq_getLast_of_ne_nil htne] at hlast
      have hmem := List.getLast_mem htne
      rw [Option.some.inj hlast] at hmem
      exact htilde hmem
    | cons u more =>
      obtain ⟨hne, hlast, hdt2, hnl2, hhead2⟩ :=
        ih (by simp) (fun v hv => h2 v (List.mem_cons_of_mem t hv))
      have hjoin : joinTilde (t :: u :: more) = t ++ '~' :: joinTilde (u :: more) := rfl
      refine ⟨by simp [hjoin], ?_, ?_, ?_, ?_⟩
      · rw [hjoin, List.getLast?_append_of_ne_nil t (by simp),
          show ('~' :: joinTilde (u :: more)) = ['~'] ++ joinTilde (u :: more)
            from rfl, List.getLast?_append_of_ne_nil ['~'] hne]
        exact hlast
      · rw [hjoin]
        exact hasDoubleTilde_sep htilde hne hhead2 hdt2
      · rw [hjoin]
        intro hm
        rcases List.mem_append.1 hm with h | h
        · exact hnl h
        · rcases List.mem_cons.1 h with h | h
          · cases h
          · exact hnl2 h
      · rw [hjoin, headD_append_of_ne_nil htne]
        exact hheadt

theorem takeWhile_append_stop {p : Char → Bool} {xs : List Char} (y : Char)
    (ys : List Char) (hxs : ∀ c ∈ xs, p c = true) (hy : p y = false) :
    (xs ++ y :: ys).takeWhile p = xs ∧ (xs ++ y :: ys).dropWhile p = y :: ys := by
  induction xs with
  | nil => simp [List.takeWhile, List.dropWhile, hy]
  | cons a t ih =>
    have ha := hxs a (List.mem_cons_self a t)
    obtain ⟨h1, h2⟩ := ih (fun c hc => hxs c (List.mem_cons_of_mem a hc))
    constructor
    · simp only [List.cons_append, List.takeWhile_cons, ha, if_true, h1]
    · simp only [List.cons_append, List.dropWhile_cons, ha, if_true, h2]

/-- Reduction of `parseContinuedFraction` past the regex match, for inputs
of the shape `sign digits .~ X`. -/
theorem parseContinuedFraction_reduce (neg : Bool) {A0 : List Char}
    (X : List Char) (hA1 : A0 ≠ []) (hA : A0.all isDigit = true) :
    parseContinuedFraction ((if neg then ['-'] else []) ++ A0 ++ '.' :: '~' :: X)
      = (if '\n' ∈ X then none
         else if X = ['0'] then
           some [if neg then -(digitsVal A0 : ℤ) else (digitsVal A0 : ℤ)]
         else if X = [] then none
         else if X.getLast? = some '~' then none
         else if hasDoubleTilde X then none
         else if (splitChar '~' X).all goodTerm then
           some ((if neg then -(digitsVal A0 : ℤ) else (digitsVal A0 : ℤ)) ::
             (splitChar '~' X).map (fun t => (digitsVal t : ℤ)))
         else none) := by
  have hdA := fun c hc => List.all_eq_true.1 hA c hc
  obtain ⟨htake, hdrop⟩ := takeWhile_append_stop '.' ('~' :: X) hdA (by decide)
  have hheadA : A0.headD ' ' ≠ '-' := by
    cases A0 with
    | nil => exact absurd rfl hA1
    | cons a r => exact isDigit_ne (hdA a (List.mem_cons_self a r)) (by decide)
  cases neg with
  | false =>
    simp only [Bool.false_eq_true, if_false, List.nil_append]
    rw [parseContinuedFraction]
    simp only [headD_append_of_ne_nil hA1, if_neg hheadA]
    simp only [htake, hdrop]
    rw [if_neg hA1]
  | true =>
    simp only [if_true, List.singleton_append, List.cons_append]
    rw [parseContinuedFraction]
    simp only [List.headD_cons, List.tail_cons, eq_self_iff_true, if_true,
      List.nil_append, htake, hdrop]
    rw [if_neg hA1]

/-- **C9.** `Parser.parseContinuedFraction` maps every string of the form
`signed-int.~a1~a2~…~an` to the integer sequence `[a0, a1, …, an]`; it
rejects a term list with a double tilde, a trailing tilde, or a term that
is not a positive decimal integer; and `x.~0` yields the one-element
sequence `[x]`. -/
theorem claim_C9_parse_continued_fraction
    (neg : Bool) (A0 : List Char) (terms : List (List Char)) (X : List Char)
    (hA1 : A0 ≠ []) (hA : A0.all isDigit = true) :
    (terms ≠ [] → (∀ t ∈ terms, goodTerm t = true) →
      parseContinuedFraction
          ((if neg then ['-'] else []) ++ A0 ++ '.' :: '~' :: joinTilde terms)
        = some ((if neg then -(digitsVal A0 : ℤ) else (digitsVal A0 : ℤ)) ::
            terms.map (fun t => (digitsVal t : ℤ)))) ∧
    parseContinuedFraction
        ((if neg then ['-'] else []) ++ A0 ++ '.' :: '~' :: ['0'])
      = some [if neg then -(digitsVal A0 : ℤ) else (digitsVal A0 : ℤ)] ∧
    (hasDoubleTilde X = true →
      parseContinuedFraction
          ((if neg then ['-'] else []) ++ A0 ++ '.' :: '~' :: X) = none) ∧
    (X.getLast? = some '~' →
      parseContinuedFraction
          ((if neg then ['-'] else []) ++ A0 ++ '.' :: '~' :: X) = none) ∧
    (X ≠ ['0'] → (∃ t ∈ splitChar '~' X, goodTerm t = false) →
      parseContinuedFraction
          ((if neg then ['-'] else []) ++ A0 ++ '.' :: '~' :: X) = none) := by
  refine ⟨?_, ?_, ?_, ?_, ?_⟩
  · intro h1 h2
    have h2' : ∀ t ∈ terms, t ≠ [] ∧ t.all isDigit = true := by
      intro t ht
      have := h2 t ht
      simp only [goodTerm, decide_eq_true_eq, Bool.decide_and,
        Bool.and_eq_true] at this
      exact ⟨by simpa using this.1, by simpa using this.2.1⟩
    obtain ⟨hne, hlast, hdt2, hnl2, hhead2⟩ := joinTilde_facts h1 h2'
    have hne0 : joinTilde terms ≠ ['0'] := by
      cases terms with
      | nil => exact absurd rfl h1
      | cons t rest =>
        cases rest with
        | nil =>
          intro e
          have hg := h2 t (List.mem_cons_self t [])
          rw [show joinTilde [t] = t from rfl] at e
          subst e
          simp [goodTerm, digitsVal, digitVal] at hg
        | cons u more =>
          intro e
          have : ('~' : Char) ∈ joinTilde (t :: u :: more) := by
            rw [show joinTilde (t :: u :: more)
              = t ++ '~' :: joinTilde (u :: more) from rfl]
            simp
          rw [e] at this
          simp at this
    have hsplit := splitChar_joinTilde h1
      (fun t ht => not_mem_of_all_digits (by decide) (h2' t ht).2)
    have hall : (splitChar '~' (joinTilde terms)).all goodTerm = true := by
      rw [hsplit]; exact List.all_eq_true.2 h2
    rw [parseContinuedFraction_reduce neg _ hA1 hA]
    simp [hnl2, hne0, hne, hlast, hdt2, hall, hsplit]
    exact h2
  · rw [parseContinuedFraction_reduce neg _ hA1 hA]
    simp
  · intro hDT
    have hX0 : X ≠ ['0'] := by rintro rfl; cases hDT
    rw [parseContinuedFraction_reduce neg _ hA1 hA]
    by_cases h1 : '\n' ∈ X
    · simp [h1]
    · simp [h1, hX0, hDT, ite_self]
  · intro hlast
    have hX0 : X ≠ ['0'] := by rintro rfl; simp at hlast
    rw [parseContinuedFraction_reduce neg _ hA1 hA]
    by_cases h1 : '\n' ∈ X
    · simp [h1]
    · simp [h1, hX0, hlast, ite_self]
  · intro hX0 hbad
    have hall : (splitChar '~' X).all goodTerm = false := by
      rcases hbad with ⟨t, ht, hgt⟩
      apply List.all_eq_false.2
      exact ⟨t, ht, by simp [hgt]⟩
    rw [parseContinuedFraction_reduce neg _ hA1 hA]
    by_cases h1 : '\n' ∈ X
    · simp [h1]
    · simp [h1, hX0, hall, ite_self]

/-- Witness for C9 at the π-convergent input `3.~7~15~1~292`. -/
theorem claim_C9_witness :
    parseContinuedFraction
        ((if false then ['-'] else []) ++ ['3'] ++ '.' :: '~' ::
          joinTilde [['7'], ['1', '5'], ['1'], ['2', '9', '2']])
      = some ((if false then -(digitsVal ['3'] : ℤ) else (digitsVal ['3'] : ℤ)) ::
          [['7'], ['1', '5'], ['1'], ['2', '9', '2']].map
            (fun t => (digitsVal t : ℤ))) :=
  (claim_C9_parse_continued_fraction false ['3']
      [['7'], ['1', '5'], ['1'], ['2', '9', '2']] []
      (by decide) (by decide)).1 (by decide) (by decide)

theorem toNat_ofNat_of_valid {n : ℕ} (h : n < 55296) :
    (Char.ofNat n).toNat = n := by
  unfold Char.ofNat Char.toNat
  rw [dif_pos]
  · rfl
  · constructor
    omega

/-- **C10.** Accepted inputs of `BaseParser.parseDefinition` yield at least
two pairwise-distinct characters; a range `c1-c2` contributes exactly the
characters with the consecutive codes `c1 … c2` and fails when the start
code exceeds the end code; duplicate expansions and expansions of fewer
than two characters are rejected. -/
theorem claim_C10_parse_definition
    (s out : List Char) (c1 c2 : Char) (rest : List Char)
    (hvalid : c2.toNat < 55296) :
    (parseDefinition s = some out ↔
      s ≠ [] ∧ expandRanges s = some out ∧ out.Nodup ∧ 2 ≤ out.length) ∧
    (c1.toNat ≤ c2.toNat →
      (rangeChars c1 c2).map Char.toNat
        = List.range' c1.toNat (c2.toNat + 1 - c1.toNat)) ∧
    (expandRanges (c1 :: '-' :: c2 :: rest)
      = if c1.toNat > c2.toNat then none
        else (fun tail => rangeChars c1 c2 ++ tail) <$> expandRanges rest) ∧
    (c1.toNat > c2.toNat →
      parseDefinition (c1 :: '-' :: c2 :: rest) = none) := by
  refine ⟨?_, ?_, ?_, ?_⟩
  · constructor
    · intro h
      rw [parseDefinition] at h
      by_cases hs : s = []
      · rw [if_pos hs] at h; cases h
      · rw [if_neg hs] at h
        cases he : expandRanges s with
        | none => rw [he] at h; simp at h
        | some chars =>
          rw [he, Option.some_bind] at h
          by_cases hnd : chars.Nodup
          · rw [if_neg (not_not_intro hnd)] at h
            by_cases hlen : chars.length < 2
            · rw [if_pos hlen] at h; cases h
            · rw [if_neg hlen] at h
              obtain rfl := Option.some.inj h
              exact ⟨hs, rfl, hnd, by omega⟩
          · rw [if_pos hnd] at h; cases h
    · rintro ⟨hs, he, hnd, hlen⟩
      rw [parseDefinition, if_neg hs, he, Option.some_bind,
        if_neg (not_not_intro hnd), if_neg (by omega)]
  · intro hle
    rw [rangeChars, List.map_map, List.range'_eq_map_range]
    apply List.map_congr_left
    intro j hj
    simp only [List.mem_range] at hj
    simp only [Function.comp_apply]
    rw [toNat_ofNat_of_valid (by omega)]
  · rfl
  · intro hgt
    rw [parseDefinition, if_neg (by simp),
      show expandRanges (c1 :: '-' :: c2 :: rest) = none by
        rw [expandRanges, if_pos rfl, if_pos hgt]]
    rfl

/-- Witness for C10: the definition `"0-9a"` expands to the ten digits
followed by `a`, and the reversed range `9-0` is rejected. -/
theorem claim_C10_witness :
    (parseDefinition ['0', '-', '9', 'a']
        = some ['0', '1', '2', '3', '4', '5', '6', '7', '8', '9', 'a'] ↔
      (['0', '-', '9', 'a'] : List Char) ≠ [] ∧
      expandRanges ['0', '-', '9', 'a']
        = some ['0', '1', '2', '3', '4', '5', '6', '7', '8', '9', 'a'] ∧
      (['0', '1', '2', '3', '4', '5', '6', '7', '8', '9', 'a'] : List Char).Nodup ∧
      2 ≤ (['0', '1', '2', '3', '4', '5', '6', '7', '8', '9', 'a'] : List Char).length) ∧
    ('0'.toNat ≤ '9'.toNat →
      (rangeChars '0' '9').map Char.toNat
        = List.range' '0'.toNat ('9'.toNat + 1 - '0'.toNat)) ∧
    (expandRanges ['0', '-', '9', 'a']
      = if '0'.toNat > '9'.toNat then none
        else (fun tail => rangeChars '0' '9' ++ tail) <$> expandRanges ['a']) ∧
    ('9'.toNat > '0'.toNat →
      parseDefinition ['9', '-', '0', 'a'] = none) := by
  have h := claim_C10_parse_definition ['0', '-', '9', 'a']
    ['0', '1', '2', '3', '4', '5', '6', '7', '8', '9', 'a'] '0' '9' ['a']
    (by decide)
  have h' := claim_C10_parse_definition ['9', '-', '0', 'a']
    ['0', '1', '2', '3', '4', '5', '6', '7', '8', '9', 'a'] '9' '0' ['a']
    (by decide)
  exact ⟨h.1, h.2.1, h.2.2.1, h'.2.2.2⟩

/-! ## C2: the type-aware promotion rule -/

/-- Counterexample to C2 as stated: a point interval with the non-integer
value `1/2` carrying the `skip_promotion` flag (produced, e.g., by
`(1/2)**1`) is left unchanged by `#promoteType`, not replaced by the
Rational as the claim asserts for every non-integer point interval. -/
theorem claim_C2_counterexample :
    promoteType true (.interval (1/2 : ℚ) (1/2) false true)
        = .interval (1/2 : ℚ) (1/2) false true ∧
    promoteType true (.interval (1/2 : ℚ) (1/2) false true)
        ≠ .rat (1/2 : ℚ) false :=
  ⟨rfl, fun h => by rw [show promoteType true
      (.interval (1/2 : ℚ) (1/2) false true)
      = .interval (1/2 : ℚ) (1/2) false true from rfl] at h; cases h⟩

/-- **C2 (amended).** The promotion step: a point interval with
integer-valued endpoint and neither flag becomes the Integer; a point
interval with non-integer value and neither flag becomes the Rational; a
`Rational(p,1)` without `explicit_fraction` becomes `Integer(p)`; all other
values (including flagged point intervals) are unchanged. -/
theorem claim_C2_promotion_amended (v : Value) :
    promoteType true v = promoteSpecAmended v := by
  cases v with
  | int n => rfl
  | rat q ef =>
    cases ef <;> by_cases hq : q.den = 1 <;>
      simp [promoteType, promoteSpecAmended, hq]
  | interval lo hi expl sp =>
    cases expl <;> cases sp <;> by_cases hlh : lo = hi <;>
      by_cases hd : lo.den = 1 <;>
      simp [promoteType, promoteSpecAmended, hlh, hd] <;>
      by_cases hd2 : hi.den = 1 <;> simp [hd2]

/-! ## C3 and C6: symmetric scaling and the scientific-notation guard -/

/-- Counterexample to C3 as stated: for the integer-base symmetric literal
`5[+-3]` the code applies the offset unscaled, `[2, 8]`, not scaled by
`10^-(0+1)` (which would give `[4.7, 5.3]`); the test suite pins this
(`78[+-10]` → `[68, 88]`). -/
theorem claim_C3_counterexample :
    parseDecimalUncertainty10 true ("5[+-3]".toList)
        = some (.interval 2 8 false false) ∧
    some (Value.interval (2 : ℚ) 8 false false)
        ≠ some (.interval ((5 : ℚ) - 3 * (1 / (10 : ℚ) ^ (0 + 1)))
            ((5 : ℚ) + 3 * (1 / (10 : ℚ) ^ (0 + 1))) false false) := by
  constructor
  · simp +decide [parseDecimalUncertainty10, uncertaintySplit, parseBaseNotation10,
      parseRepeatingDecimalOrRegular10, symmetricBranchCode, baseDecimalPlaces, mkInterval,
      findSeq2, findE, splitChar, digitsVal, digitVal, isValidString10, removeFirst,
      parseExponentStr, endsWithBracketBase, Value.asScalarRat, isBaseClassChar, isWordChar,
      isAsciiAlpha, hasSeq2]
    norm_num
  · simp only [ne_eq, Option.some.injEq, Value.interval.injEq]
    intro h
    rcases h with ⟨h1, -, -, -⟩
    norm_num at h1

/-- **C3 (amended).** In the symmetric uncertainty form the offset is
scaled by `inputBase^-(d+1)` (`inputBase^-d` for a repeating-decimal
offset) exactly when the base literal contains a decimal point (`d` its
fractional digit count, possibly 0 for a trailing point); when the base has
no decimal point the offset is applied unscaled.  Either way the result is
the interval `[base − scaledX, base + scaledX]`. -/
theorem claim_C3_symmetric_scaling (b : ℕ) (baseValue offset : ℚ) (d : ℕ)
    (baseHasDot isRepeating : Bool) (hoff : 0 ≤ offset)
    (hinv : baseHasDot = false → d = 0) :
    symmetricBranchCode b baseValue d baseHasDot offset isRepeating
      = if baseHasDot then
          .interval
            (baseValue - offset * (1 / (b : ℚ) ^ (if isRepeating then d else d + 1)))
            (baseValue + offset * (1 / (b : ℚ) ^ (if isRepeating then d else d + 1)))
            false false
        else .interval (baseValue - offset) (baseValue + offset) false false := by
  cases baseHasDot with
  | false =>
    have hd := hinv rfl
    rw [symmetricBranchCode, if_pos ⟨hd, by simp⟩, mkInterval,
      if_pos (by linarith)]
    simp
  | true =>
    rw [symmetricBranchCode, if_neg (by simp)]
    have hscale : (0 : ℚ) ≤ 1 / (b : ℚ) ^ (if isRepeating then d else d + 1) := by
      positivity
    have : (0 : ℚ) ≤ offset * (1 / (b : ℚ) ^ (if isRepeating then d else d + 1)) :=
      mul_nonneg hoff hscale
    rw [mkInterval, if_pos (by linarith)]
    simp

/-- Witness for C3 (amended) at `1.3[+-1]`: base `13/10`, one fractional
digit, offset `1`, giving `[1.3 − 1/100, 1.3 + 1/100]`. -/
theorem claim_C3_witness :
    symmetricBranchCode 10 (13 / 10) 1 true 1 false
      = if true then
          .interval
            ((13 / 10 : ℚ) - 1 * (1 / (10 : ℚ) ^ (if false then 1 else 1 + 1)))
            ((13 / 10 : ℚ) + 1 * (1 / (10 : ℚ) ^ (if false then 1 else 1 + 1)))
            false false
        else .interval ((13 / 10 : ℚ) - 1) ((13 / 10 : ℚ) + 1) false false :=
  claim_C3_symmetric_scaling 10 (13 / 10) 1 1 true false (by norm_num)
    (by intro h; cases h)

/-- Counterexample to C6 as stated: the symmetric uncertainty literal
`1.5E2[+-3]`, whose base value contains scientific notation, is accepted
silently (the base parses to 150 and the `E2` digits are counted as
fractional places for the scale `10^-4`). -/
theorem claim_C6_counterexample :
    parseDecimalUncertainty10 true ("1.5E2[+-3]".toList)
      = some (.interval (1499997 / 10000) (1500003 / 10000) false false) := by
  simp +decide [parseDecimalUncertainty10, uncertaintySplit, parseBaseNotation10,
    parseRepeatingDecimalOrRegular10, symmetricBranchCode, baseDecimalPlaces, mkInterval,
    findSeq2, findE, splitChar, digitsVal, digitVal, isValidString10, removeFirst,
    parseExponentStr, endsWithBracketBase, Value.asScalarRat, isBaseClassChar, isWordChar,
    isAsciiAlpha, hasSeq2]
  norm_num

/-- **C6 (amended).** The range and relative uncertainty forms reject a
base value containing scientific notation (`E`/`e` in base 10, `_^` in any
base) with an error; the symmetric form performs no such check and accepts
such literals. -/
theorem claim_C6_scientific_in_uncertainty_base
    (allowIntegerRangeNotation : Bool) (baseStr body : List Char)
    (b : ℕ) (baseValue : ℚ) (d : ℕ)
    (hE : hasConfusingENotation baseStr = true) :
    rangeBranch allowIntegerRangeNotation baseStr body d = none ∧
    relativeBranch b baseStr body baseValue d = none := by
  constructor
  · rw [rangeBranch]
    split_ifs with h1
    · rfl
    · cases h2 : splitUncParts body with
      | nil => rfl
      | cons l rest =>
        cases rest with
        | nil => rfl
        | cons u rest2 =>
          cases rest2 with
          | nil => simp [hE]
          | cons v rest3 => rfl
  · rw [relativeBranch]
    by_cases h1 : ((splitUncParts body).length > 2 ∨
        (splitUncParts body).length = 0)
    · rw [if_pos h1]
    · rw [if_neg h1, if_pos hE]

/-- Witness for C6 (amended) at the base string `1.5E2` with range body
`2,3` and relative body `+2,-3`. -/
theorem claim_C6_witness :
    rangeBranch true ("1.5E2".toList) ("2,3".toList) 3 = none ∧
    relativeBranch 10 ("1.5E2".toList) ("+2,-3".toList) 150 3 = none :=
  claim_C6_scientific_in_uncertainty_base true ("1.5E2".toList)
    ("+2,-3".toList) 10 150 3 (by decide)

/-! ### Symbolic evaluation lemmas for the pipeline -/

theorem dropWhile_eq_nil_of {p : Char → Bool} {l : List Char}
    (h : ∀ c ∈ l, p c = true) : l.dropWhile p = [] := by
  induction l with
  | nil => rfl
  | cons c rest ih =>
    rw [List.dropWhile_cons, if_pos (h c (List.mem_cons_self c rest))]
    exact ih (fun d hd => h d (List.mem_cons_of_mem c hd))

theorem takeWhile_all {p : Char → Bool} {l : List Char}
    (h : ∀ c ∈ l, p c = true) : l.takeWhile p = l := by
  induction l with
  | nil => rfl
  | cons c rest ih =>
    rw [List.takeWhile_cons, if_pos (h c (List.mem_cons_self c rest))]
    rw [ih (fun d hd => h d (List.mem_cons_of_mem c hd))]

theorem isAsciiAlpha_false_of_isDigit {c : Char} (h : isDigit c = true) :
    isAsciiAlpha c = false := by
  simp only [isDigit, Bool.decide_and, Bool.and_eq_true, decide_eq_true_eq] at h
  by_contra hne
  have ha : isAsciiAlpha c = true := by simpa using hne
  simp only [isAsciiAlpha, Bool.decide_or, decide_eq_true_eq,
    Bool.or_eq_true] at ha
  rcases ha with ⟨h1, _⟩ | ⟨h1, _⟩
  · exact absurd (le_trans h1 h.2) (by decide)
  · exact absurd (le_trans h1 h.2) (by decide)

theorem hasSeq2_false_of_not_mem {a b : Char} {l : List Char}
    (h : a ∉ l) : hasSeq2 a b l = false := by
  induction l with
  | nil => rfl
  | cons c rest ih =>
    cases rest with
    | nil => rfl
    | cons y r2 =>
      have hc : ¬(c = a) := fun e => h (by simp [e])
      have h2 : hasSeq2 a b (y :: r2) = false :=
        ih (fun hm => h (List.mem_cons_of_mem c hm))
      rw [show hasSeq2 a b (c :: y :: r2)
        = ((c = a ∧ y = b) ∨ hasSeq2 a b (y :: r2) : Bool) from rfl, h2]
      simp [hc]

theorem hasDecimalHead_false_of_not_mem {l : List Char} (h : '.' ∉ l) :
    hasDecimalHead l = false := by
  rw [hasDecimalHead, dropWhile_eq_nil_of]
  intro c hc
  simp only [decide_eq_true_eq]
  exact fun e => h (e ▸ hc)

theorem parseRationalEmb_digits_tail {a : Char} {as' rest : List Char}
    (hda : isDigit a = true) (ha : as'.all isDigit = true) (ht : TailOk rest) :
    parseRationalEmb (a :: (as' ++ rest))
      = some (.rat ((digitsVal (a :: as') : ℤ) : ℚ) false, rest) := by
  obtain ⟨hhash, hdot, hlb, hcol, hhead⟩ := ht
  have hdA : ∀ c ∈ a :: as', isDigit c = true := by
    intro c hc
    rcases List.mem_cons.1 hc with h | h
    · exact h ▸ hda
    · exact List.all_eq_true.1 ha c h
  have hnm : ¬(a = '-') := isDigit_ne hda (by decide)
  have hn0alpha : isAsciiAlpha ((as' ++ rest).headD ' ') = false := by
    cases as' with
    | nil =>
      simp only [List.nil_append]
      rcases hhead with h | ⟨_, h2, _, _⟩
      · subst h; decide
      · exact h2
    | cons b bs' =>
      rw [headD_append_of_ne_nil (by simp)]
      exact isAsciiAlpha_false_of_isDigit
        (List.all_eq_true.1 ha b (List.mem_cons_self b bs'))
  have hnohash : '#' ∉ a :: (as' ++ rest) := by
    intro hm
    rcases List.mem_cons.1 hm with h | h
    · exact isDigit_ne hda (by decide) h.symm
    · rcases List.mem_append.1 h with h | h
      · exact not_mem_of_all_digits (by decide) ha h
      · exact hhash h
  have hnodot : '.' ∉ a :: (as' ++ rest) := by
    intro hm
    rcases List.mem_cons.1 hm with h | h
    · exact isDigit_ne hda (by decide) h.symm
    · rcases List.mem_append.1 h with h | h
      · exact not_mem_of_all_digits (by decide) ha h
      · exact hdot h
  have hdh : hasDecimalHead (a :: (as' ++ rest)) = false :=
    hasDecimalHead_false_of_not_mem hnodot
  obtain ⟨htake, hdrop⟩ : (as' ++ rest).takeWhile isDigit = as' ∧
      (as' ++ rest).dropWhile isDigit = rest := by
    have hdas' := fun c hc => List.all_eq_true.1 ha c hc
    rcases hhead with h | ⟨h1, _, _, _⟩
    · subst h
      exact ⟨by rw [List.append_nil, takeWhile_all hdas'],
        by rw [List.append_nil, dropWhile_eq_nil_of hdas']⟩
    · cases rest with
      | nil =>
        exact ⟨by rw [List.append_nil, takeWhile_all hdas'],
          by rw [List.append_nil, dropWhile_eq_nil_of hdas']⟩
      | cons r rs => exact takeWhile_append_stop r rs hdas' h1
  have hto : ((a :: (as' ++ rest)).takeWhile isDigit) = a :: as' := by
    rw [List.takeWhile_cons, if_pos hda, htake]
  have hdo : ((a :: (as' ++ rest)).dropWhile isDigit) = rest := by
    rw [List.dropWhile_cons, if_pos hda, hdrop]
  have htk2 : rest.take 2 ≠ ['.', '.'] := by
    cases rest with
    | nil => simp
    | cons r rs =>
      rcases hhead with h | ⟨_, _, _, _⟩
      · cases h
      · intro he
        have : r = '.' := by
          have := congrArg (fun l => l.headD ' ') he
          simpa using this
        exact hdot (this ▸ List.mem_cons_self r rs)
  have hslash : ∀ rest2, rest ≠ '/' :: rest2 := by
    intro rest2 he
    rcases hhead with h | ⟨_, _, h3, _⟩
    · rw [h] at he; cases he
    · rw [he] at h3; exact h3 rfl
  rw [parseRationalEmb]
  simp only [List.headD_cons, if_neg hnm, List.drop_one, List.tail_cons]
  rw [if_neg (fun hand => by
    rw [hand.2] at hn0alpha; cases hn0alpha)]
  rw [if_neg hnohash, if_neg (by simp [hdh]), hto, if_neg (by simp)]
  have hdropn : List.drop (a :: as').length (a :: (as' ++ rest)) = rest := by
    rw [List.length_cons, List.drop_succ_cons, List.drop_left]
  rw [hdropn, if_neg htk2]
  split
  · exact absurd rfl (hslash _)
  · rfl

theorem parseRationalEmb_fraction {a b : Char} {as' bs' : List Char}
    (hda : isDigit a = true) (ha : as'.all isDigit = true)
    (hdb : isDigit b = true) (hb : bs'.all isDigit = true)
    (hb0 : (digitsVal (b :: bs') : ℤ) ≠ 0) :
    parseRationalEmb (a :: (as' ++ '/' :: b :: bs'))
      = some (.rat
          (((digitsVal (a :: as') : ℤ) : ℚ) / ((digitsVal (b :: bs') : ℤ) : ℚ))
          ((digitsVal (b :: bs') : ℤ) = 1), []) := by
  have hdA : ∀ c ∈ as', isDigit c = true := fun c hc => List.all_eq_true.1 ha c hc
  have hdB : ∀ c ∈ b :: bs', isDigit c = true := by
    intro c hc
    rcases List.mem_cons.1 hc with h | h
    · exact h ▸ hdb
    · exact List.all_eq_true.1 hb c h
  have hnm : ¬(a = '-') := isDigit_ne hda (by decide)
  have hn0alpha : isAsciiAlpha ((as' ++ '/' :: b :: bs').headD ' ') = false := by
    cases as' with
    | nil => rw [List.nil_append, List.headD_cons]; decide
    | cons c cs =>
      rw [headD_append_of_ne_nil (by simp)]
      exact isAsciiAlpha_false_of_isDigit (hdA c (List.mem_cons_self c cs))
  have hnohash : '#' ∉ a :: (as' ++ '/' :: b :: bs') := by
    intro hm
    rcases List.mem_cons.1 hm with h | h
    · exact isDigit_ne hda (by decide) h.symm
    · rcases List.mem_append.1 h with h | h
      · exact not_mem_of_all_digits (by decide) ha h
      · rcases List.mem_cons.1 h with h | h
        · cases h
        · exact not_mem_of_all_digits (by decide) (by
            simpa using And.intro (by simpa using hdb)
              (by simpa using hb)) h
  have hnodot : '.' ∉ a :: (as' ++ '/' :: b :: bs') := by
    intro hm
    rcases List.mem_cons.1 hm with h | h
    · exact isDigit_ne hda (by decide) h.symm
    · rcases List.mem_append.1 h with h | h
      · exact not_mem_of_all_digits (by decide) ha h
      · rcases List.mem_cons.1 h with h | h
        · cases h
        · rcases List.mem_cons.1 h with h | h
          · exact isDigit_ne hdb (by decide) h.symm
          · exact not_mem_of_all_digits (by decide) hb h
  have hdh : hasDecimalHead (a :: (as' ++ '/' :: b :: bs')) = false :=
    hasDecimalHead_false_of_not_mem hnodot
  obtain ⟨htake, hdrop⟩ := takeWhile_append_stop '/' (b :: bs') hdA (by decide)
  have hto : ((a :: (as' ++ '/' :: b :: bs')).takeWhile isDigit) = a :: as' := by
    rw [List.takeWhile_cons, if_pos hda, htake]
  rw [parseRationalEmb]
  simp only [List.headD_cons, if_neg hnm, List.drop_one, List.tail_cons]
  rw [if_neg (fun hand => by
    rw [hand.2] at hn0alpha; cases hn0alpha)]
  rw [if_neg hnohash, if_neg (by simp [hdh]), hto, if_neg (by simp)]
  have hdropn : List.drop (a :: as').length (a :: (as' ++ '/' :: b :: bs'))
      = '/' :: b :: bs' := by
    rw [List.length_cons, List.drop_succ_cons, List.drop_left]
  rw [hdropn, if_neg (by simp)]
  simp only [List.headD_cons]
  rw [if_neg (isDigit_ne hdb (by decide)), if_neg (isDigit_ne hdb (by decide))]
  rw [takeWhile_all hdB, if_neg (by simp)]
  rw [List.drop_length, if_neg (by simp)]
  rw [if_neg hb0]

theorem parseRationalEmb_divisionMarker {a : Char} {as' rest : List Char}
    (hda : isDigit a = true) (ha : as'.all isDigit = true)
    (hhash : '#' ∉ rest) (hdot : '.' ∉ rest) :
    parseRationalEmb (a :: (as' ++ '/' :: 'S' :: rest))
      = some (.rat ((digitsVal (a :: as') : ℤ) : ℚ) false,
          '/' :: 'S' :: rest) := by
  have hdA : ∀ c ∈ as', isDigit c = true := fun c hc => List.all_eq_true.1 ha c hc
  have hnm : ¬(a = '-') := isDigit_ne hda (by decide)
  have hn0alpha : isAsciiAlpha ((as' ++ '/' :: 'S' :: rest).headD ' ') = false := by
    cases as' with
    | nil => rw [List.nil_append, List.headD_cons]; decide
    | cons c cs =>
      rw [headD_append_of_ne_nil (by simp)]
      exact isAsciiAlpha_false_of_isDigit (hdA c (List.mem_cons_self c cs))
  have hnohash : '#' ∉ a :: (as' ++ '/' :: 'S' :: rest) := by
    intro hm
    rcases List.mem_cons.1 hm with h | h
    · exact isDigit_ne hda (by decide) h.symm
    · rcases List.mem_append.1 h with h | h
      · exact not_mem_of_all_digits (by decide) ha h
      · rcases List.mem_cons.1 h with h | h
        · cases h
        · rcases List.mem_cons.1 h with h | h
          · cases h
          · exact hhash h
  have hnodot : '.' ∉ a :: (as' ++ '/' :: 'S' :: rest) := by
    intro hm
    rcases List.mem_cons.1 hm with h | h
    · exact isDigit_ne hda (by decide) h.symm
    · rcases List.mem_append.1 h with h | h
      · exact not_mem_of_all_digits (by decide) ha h
      · rcases List.mem_cons.1 h with h | h
        · cases h
        · rcases List.mem_cons.1 h with h | h
          · cases h
          · exact hdot h
  have hdh : hasDecimalHead (a :: (as' ++ '/' :: 'S' :: rest)) = false :=
    hasDecimalHead_false_of_not_mem hnodot
  obtain ⟨htake, hdrop⟩ := takeWhile_append_stop '/' ('S' :: rest) hdA (by decide)
  have hto : ((a :: (as' ++ '/' :: 'S' :: rest)).takeWhile isDigit) = a :: as' := by
    rw [List.takeWhile_cons, if_pos hda, htake]
  rw [parseRationalEmb]
  simp only [List.headD_cons, if_neg hnm, List.drop_one, List.tail_cons]
  rw [if_neg (fun hand => by
    rw [hand.2] at hn0alpha; cases hn0alpha)]
  rw [if_neg hnohash, if_neg (by simp [hdh]), hto, if_neg (by simp)]
  have hdropn : List.drop (a :: as').length (a :: (as' ++ '/' :: 'S' :: rest))
      = '/' :: 'S' :: rest := by
    rw [List.length_cons, List.drop_succ_cons, List.drop_left]
  rw [hdropn, if_neg (by simp)]
  simp only [List.headD_cons, if_true]

theorem hasSeq2_false_of_not_mem_snd {a b : Char} {l : List Char}
    (h : b ∉ l) : hasSeq2 a b l = false := by
  induction l with
  | nil => rfl
  | cons c rest ih =>
    cases rest with
    | nil => rfl
    | cons y r2 =>
      have hy : ¬(y = b) := fun e => h (by simp [e])
      have h2 : hasSeq2 a b (y :: r2) = false :=
        ih (fun hm => h (List.mem_cons_of_mem c hm))
      rw [show hasSeq2 a b (c :: y :: r2)
        = ((c = a ∧ y = b) ∨ hasSeq2 a b (y :: r2) : Bool) from rfl, h2]
      simp [hy]

theorem replaceSpaceE_of_no_space {l : List Char} (h : ' ' ∉ l) :
    replaceSpaceE l = l := by
  induction l with
  | nil => rfl
  | cons c tl ih =>
    cases tl with
    | nil => rfl
    | cons y r =>
      rw [replaceSpaceE, if_neg (fun hand => h (by simp [hand.1]))]
      rw [ih (fun hm => h (List.mem_cons_of_mem c hm))]

theorem replaceSpaceE_append {as rest : List Char} (ha : ' ' ∉ as)
    (hne : rest ≠ []) :
    replaceSpaceE (as ++ rest) = as ++ replaceSpaceE rest := by
  induction as with
  | nil => simp
  | cons c t ih =>
    have htr : t ++ rest ≠ [] := fun e => hne (List.append_eq_nil.1 e).2
    cases he : t ++ rest with
    | nil => exact absurd he htr
    | cons y r =>
      rw [List.cons_append, he, replaceSpaceE,
        if_neg (fun hand => ha (by simp [hand.1])), ← he,
        ih (fun hm => ha (List.mem_cons_of_mem c hm))]
      rfl

theorem replaceSlashSpace_of_no_space {l : List Char} (h : ' ' ∉ l) :
    replaceSlashSpace l = l := by
  induction l with
  | nil => rfl
  | cons c tl ih =>
    cases tl with
    | nil => rfl
    | cons y r =>
      rw [replaceSlashSpace, if_neg (fun hand => h (by simp [hand.2]))]
      rw [ih (fun hm => h (List.mem_cons_of_mem c hm))]

theorem replaceSlashSpace_append {as rest : List Char} (ha : '/' ∉ as)
    (hne : rest ≠ []) :
    replaceSlashSpace (as ++ rest) = as ++ replaceSlashSpace rest := by
  induction as with
  | nil => simp
  | cons c t ih =>
    have htr : t ++ rest ≠ [] := fun e => hne (List.append_eq_nil.1 e).2
    cases he : t ++ rest with
    | nil => exact absurd he htr
    | cons y r =>
      rw [List.cons_append, he, replaceSlashSpace,
        if_neg (fun hand => ha (by simp [hand.1])), ← he,
        ih (fun hm => ha (List.mem_cons_of_mem c hm))]
      rfl

theorem filter_not_ws_of {l : List Char} (h : ∀ c ∈ l, isWS c = false) :
    l.filter (fun c => ¬isWS c) = l := by
  refine List.filter_eq_self.2 (fun c hc => ?_)
  simp [h c hc]

theorem parseTermLoop_nil (fuel : ℕ) (t : Bool) (acc : Value) :
    parseTermLoop (fuel + 1) t acc [] = some (acc, []) := rfl

theorem parseExpressionLoop_nil (fuel : ℕ) (t : Bool) (acc : Value) :
    parseExpressionLoop (fuel + 1) t acc [] = some (acc, []) := rfl

theorem promoteType_false (v : Value) : promoteType false v = v := rfl

theorem promoteType_true_rat_false (q : ℚ) :
    promoteType true (.rat q false) = scalarOfRat q := by
  by_cases h : q.den = 1 <;> simp [promoteType, scalarOfRat, h]

theorem promoteType_true_rat_true (q : ℚ) :
    promoteType true (.rat q true) = .rat q true := by
  by_cases h : q.den = 1 <;> simp [promoteType, h]

theorem promoteType_scalarOfRat (q : ℚ) :
    promoteType true (scalarOfRat q) = scalarOfRat q := by
  by_cases h : q.den = 1 <;> simp [promoteType, scalarOfRat, h]

theorem TailOk_nil : TailOk [] := by
  refine ⟨by simp, by simp, by simp, by simp, Or.inl rfl⟩

theorem headD_ne_of_not_mem {x : Char} {rest : List Char} (hx : x ≠ ' ')
    (h : x ∉ rest) : rest.headD ' ' ≠ x := by
  cases rest with
  | nil => simpa using fun e => hx e.symm
  | cons c r => simpa using fun e => h (by simp [e])

theorem parseIntervalTail_digits {a : Char} {as' rest : List Char}
    (hda : isDigit a = true) (ha : as'.all isDigit = true) (ht : TailOk rest) :
    parseIntervalTail true (a :: (as' ++ rest))
      = some (.int (digitsVal (a :: as') : ℤ), rest) := by
  have hE : rest.headD ' ' ≠ 'E' := by
    rcases ht.2.2.2.2 with h | h
    · subst h; decide
    · exact h.2.2.2
  have hC : rest.headD ' ' ≠ ':' :=
    headD_ne_of_not_mem (by decide) ht.2.2.2.1
  rw [parseIntervalTail, parseRationalEmb_digits_tail hda ha ht]
  simp only [if_neg hE, if_neg hC, if_pos rfl, Rat.den_intCast,
    Rat.num_intCast, if_true, Bool.false_eq_true, if_false]

theorem parseIntervalTail_fraction {a b : Char} {as' bs' : List Char}
    (hda : isDigit a = true) (ha : as'.all isDigit = true)
    (hdb : isDigit b = true) (hb : bs'.all isDigit = true)
    (hb0 : (digitsVal (b :: bs') : ℤ) ≠ 0) :
    parseIntervalTail true (a :: (as' ++ '/' :: b :: bs'))
      = some (if (digitsVal (b :: bs') : ℤ) = 1
          then .rat ((digitsVal (a :: as') : ℤ) : ℚ) true
          else scalarOfRat (((digitsVal (a :: as') : ℤ) : ℚ)
            / ((digitsVal (b :: bs') : ℤ) : ℚ)), []) := by
  rw [parseIntervalTail, parseRationalEmb_fraction hda ha hdb hb hb0]
  by_cases h1 : (digitsVal (b :: bs') : ℤ) = 1
  · simp only [h1, Int.cast_one, div_one, decide_eq_true_eq, if_pos rfl]
    simp only [List.headD_nil, if_neg (by decide : ¬(' ' = 'E')),
      if_neg (by decide : ¬(' ' = ':')), if_pos rfl, Rat.den_intCast,
      if_true, decide_eq_true_eq]
    norm_num
  · simp only [decide_eq_false h1, if_neg h1]
    simp only [List.headD_nil, if_neg (by decide : ¬(' ' = 'E')),
      if_neg (by decide : ¬(' ' = ':')), if_pos rfl]
    by_cases hden : (((digitsVal (a :: as') : ℤ) : ℚ)
        / ((digitsVal (b :: bs') : ℤ) : ℚ)).den = 1
    · simp only [hden, if_true, Bool.false_eq_true, if_false, scalarOfRat,
        if_pos rfl]
    · simp only [hden, if_false, scalarOfRat, Bool.false_eq_true, if_true]

theorem parseIntervalTail_divMarker {a : Char} {as' rest : List Char}
    (hda : isDigit a = true) (ha : as'.all isDigit = true)
    (hhash : '#' ∉ rest) (hdot : '.' ∉ rest) :
    parseIntervalTail true (a :: (as' ++ '/' :: 'S' :: rest))
      = some (.int (digitsVal (a :: as') : ℤ), '/' :: 'S' :: rest) := by
  rw [parseIntervalTail, parseRationalEmb_divisionMarker hda ha hhash hdot]
  simp only [List.headD_cons, if_neg (by decide : ¬('/' = 'E')),
    if_neg (by decide : ¬('/' = ':')), if_pos rfl, Rat.den_intCast,
    Rat.num_intCast, if_true, Bool.false_eq_true, if_false]

theorem parseIntervalEmb_noDot {t : Bool} {expr : List Char}
    (hbr : '[' ∉ expr) (hdot : '.' ∉ expr) (hhash : '#' ∉ expr) :
    parseIntervalEmb t expr = parseIntervalTail t expr := by
  rw [parseIntervalEmb, if_neg hbr]
  rw [hasSeq2_false_of_not_mem hdot]
  simp only [Bool.false_eq_true, if_false]
  rw [if_neg (fun hc => hdot hc.1), if_neg (fun hc => hhash hc.1)]

theorem parseFactorEmb_digits (f : ℕ) {a : Char} {as' : List Char}
    (hda : isDigit a = true) (ha : as'.all isDigit = true) :
    parseFactorEmb (f + 1) true (a :: as')
      = some (.int (digitsVal (a :: as') : ℤ), []) := by
  have hbr : '[' ∉ a :: as' := by
    intro hm
    rcases List.mem_cons.1 hm with h | h
    · exact isDigit_ne hda (by decide) h.symm
    · exact not_mem_of_all_digits (by decide) ha h
  have hdot : '.' ∉ a :: as' := by
    intro hm
    rcases List.mem_cons.1 hm with h | h
    · exact isDigit_ne hda (by decide) h.symm
    · exact not_mem_of_all_digits (by decide) ha h
  have hhash : '#' ∉ a :: as' := by
    intro hm
    rcases List.mem_cons.1 hm with h | h
    · exact isDigit_ne hda (by decide) h.symm
    · exact not_mem_of_all_digits (by decide) ha h
  have hIT : parseIntervalTail true (a :: as')
      = some (.int (digitsVal (a :: as') : ℤ), []) := by
    have h := parseIntervalTail_digits hda ha TailOk_nil
    rwa [List.append_nil] at h
  rw [parseFactorEmb, if_neg (by simp), if_neg (by
    simpa using isDigit_ne hda (by decide)),
    if_neg (fun hc => hbr hc.1),
    if_neg (fun hc => absurd hc.1 (by simpa using isDigit_ne hda (by decide))),
    parseIntervalEmb_noDot hbr hdot hhash, hIT]
  rfl

theorem parseFactorEmb_fraction (f : ℕ) {a b : Char} {as' bs' : List Char}
    (hda : isDigit a = true) (ha : as'.all isDigit = true)
    (hdb : isDigit b = true) (hb : bs'.all isDigit = true)
    (hb0 : (digitsVal (b :: bs') : ℤ) ≠ 0) :
    parseFactorEmb (f + 1) true (a :: (as' ++ '/' :: b :: bs'))
      = some (if (digitsVal (b :: bs') : ℤ) = 1
          then .rat ((digitsVal (a :: as') : ℤ) : ℚ) true
          else scalarOfRat (((digitsVal (a :: as') : ℤ) : ℚ)
            / ((digitsVal (b :: bs') : ℤ) : ℚ)), []) := by
  have hnot : ∀ x : Char, isDigit x = false → x ≠ '/' →
      x ∉ a :: (as' ++ '/' :: b :: bs') := by
    intro x hx hslash hm
    rcases List.mem_cons.1 hm with h | h
    · exact isDigit_ne hda hx h.symm
    · rcases List.mem_append.1 h with h | h
      · exact not_mem_of_all_digits hx ha h
      · rcases List.mem_cons.1 h with h | h
        · exact hslash h
        · rcases List.mem_cons.1 h with h | h
          · exact isDigit_ne hdb hx h.symm
          · exact not_mem_of_all_digits hx hb h
  have hbr := hnot '[' (by decide) (by decide)
  have hdot := hnot '.' (by decide) (by decide)
  have hhash := hnot '#' (by decide) (by decide)
  rw [parseFactorEmb, if_neg (by simp), if_neg (by
    simpa using isDigit_ne hda (by decide)),
    if_neg (fun hc => hbr hc.1),
    if_neg (fun hc => absurd hc.1 (by simpa using isDigit_ne hda (by decide))),
    parseIntervalEmb_noDot hbr hdot hhash,
    parseIntervalTail_fraction hda ha hdb hb hb0]
  by_cases h1 : (digitsVal (b :: bs') : ℤ) = 1 <;> simp only [h1, if_true,
    if_false, Bool.false_eq_true] <;> rfl

theorem parseFactorEmb_divMarker (f : ℕ) {a b : Char} {as' bs' : List Char}
    (hda : isDigit a = true) (ha : as'.all isDigit = true)
    (hdb : isDigit b = true) (hb : bs'.all isDigit = true) :
    parseFactorEmb (f + 1) true (a :: (as' ++ '/' :: 'S' :: b :: bs'))
      = some (.int (digitsVal (a :: as') : ℤ), '/' :: 'S' :: b :: bs') := by
  have hnot : ∀ x : Char, isDigit x = false → x ≠ '/' → x ≠ 'S' →
      x ∉ a :: (as' ++ '/' :: 'S' :: b :: bs') := by
    intro x hx hslash hS hm
    rcases List.mem_cons.1 hm with h | h
    · exact isDigit_ne hda hx h.symm
    · rcases List.mem_append.1 h with h | h
      · exact not_mem_of_all_digits hx ha h
      · rcases List.mem_cons.1 h with h | h
        · exact hslash h
        · rcases List.mem_cons.1 h with h | h
          · exact hS h
          · rcases List.mem_cons.1 h with h | h
            · exact isDigit_ne hdb hx h.symm
            · exact not_mem_of_all_digits hx hb h
  have hbr := hnot '[' (by decide) (by decide) (by decide)
  have hdot := hnot '.' (by decide) (by decide) (by decide)
  have hhash := hnot '#' (by decide) (by decide) (by decide)
  have hhashT : '#' ∉ b :: bs' := by
    intro hm
    rcases List.mem_cons.1 hm with h | h
    · exact isDigit_ne hdb (by decide) h.symm
    · exact not_mem_of_all_digits (by decide) hb h
  have hdotT : '.' ∉ b :: bs' := by
    intro hm
    rcases List.mem_cons.1 hm with h | h
    · exact isDigit_ne hdb (by decide) h.symm
    · exact not_mem_of_all_digits (by decide) hb h
  rw [parseFactorEmb, if_neg (by simp), if_neg (by
    simpa using isDigit_ne hda (by decide)),
    if_neg (fun hc => hbr hc.1),
    if_neg (fun hc => absurd hc.1 (by simpa using isDigit_ne hda (by decide))),
    parseIntervalEmb_noDot hbr hdot hhash,
    parseIntervalTail_divMarker hda ha hhashT hdotT]
  rfl

theorem parseTermLoop_nil2 (f : ℕ) (t : Bool) (acc : Value) :
    parseTermLoop (f + 2) t acc [] = some (acc, []) := rfl

theorem parseExpressionLoop_nil2 (f : ℕ) (t : Bool) (acc : Value) :
    parseExpressionLoop (f + 2) t acc [] = some (acc, []) := rfl

theorem parseTermEmb_of (f : ℕ) {t : Bool} {expr : List Char} {v : Value}
    (h : parseFactorEmb (f + 2) t expr = some (v, [])) :
    parseTermEmb (f + 2) t expr = some (promoteType t v, []) := by
  rw [parseTermEmb, h]
  rfl

theorem parseExpressionEmb_of (f : ℕ) {t : Bool} {expr : List Char} {v : Value}
    (h : parseTermEmb (f + 2) t expr = some (v, [])) :
    parseExpressionEmb (f + 2) t expr = some (promoteType t v, []) := by
  rw [parseExpressionEmb, h]
  rfl

theorem parseTermEmb_fraction (f : ℕ) {a b : Char} {as' bs' : List Char}
    (hda : isDigit a = true) (ha : as'.all isDigit = true)
    (hdb : isDigit b = true) (hb : bs'.all isDigit = true)
    (hb0 : (digitsVal (b :: bs') : ℤ) ≠ 0) :
    parseTermEmb (f + 2) true (a :: (as' ++ '/' :: b :: bs'))
      = some (if (digitsVal (b :: bs') : ℤ) = 1
          then .rat ((digitsVal (a :: as') : ℤ) : ℚ) true
          else scalarOfRat (((digitsVal (a :: as') : ℤ) : ℚ)
            / ((digitsVal (b :: bs') : ℤ) : ℚ)), []) := by
  rw [parseTermEmb_of f (parseFactorEmb_fraction (f + 1) hda ha hdb hb hb0)]
  by_cases h1 : (digitsVal (b :: bs') : ℤ) = 1
  · rw [if_pos h1, promoteType_true_rat_true]
  · rw [if_neg h1, promoteType_scalarOfRat]

theorem parseTermLoop_div (f : ℕ) (m : ℤ) {b : Char} {bs' : List Char}
    (hdb : isDigit b = true) (hb : bs'.all isDigit = true)
    (hb0Q : ((digitsVal (b :: bs') : ℤ) : ℚ) ≠ 0) :
    parseTermLoop (f + 2) true (.int m) ('/' :: 'S' :: b :: bs')
      = some (.rat ((m : ℚ) / ((digitsVal (b :: bs') : ℤ) : ℚ)) false, []) := by
  show parseTermLoop (f + 1 + 1) true (.int m) ('/' :: 'S' :: b :: bs') = _
  rw [parseTermLoop,
    if_neg (show ¬(('/' :: 'S' :: b :: bs').take 2 = ['T', 'E']) by simp),
    if_neg (show ¬(('/' :: 'S' :: b :: bs').headD ' ' = 'E') by
      rw [List.headD_cons]; decide),
    if_neg (show ¬(('/' :: 'S' :: b :: bs').headD ' ' = '*') by
      rw [List.headD_cons]; decide),
    if_pos (show ('/' :: 'S' :: b :: bs').headD ' ' = '/' from rfl)]
  simp only [List.tail_cons, List.headD_cons, eq_self_iff_true, if_true]
  rw [parseFactorEmb_digits f hdb hb]
  simp only [divValue, Value.toRat, if_neg hb0Q]
  rw [parseTermLoop_nil f]

theorem parseTermEmb_division (f : ℕ) {a b : Char} {as' bs' : List Char}
    (hda : isDigit a = true) (ha : as'.all isDigit = true)
    (hdb : isDigit b = true) (hb : bs'.all isDigit = true)
    (hb0Q : ((digitsVal (b :: bs') : ℤ) : ℚ) ≠ 0) :
    parseTermEmb (f + 2) true (a :: (as' ++ '/' :: 'S' :: b :: bs'))
      = some (scalarOfRat (((digitsVal (a :: as') : ℤ) : ℚ)
          / ((digitsVal (b :: bs') : ℤ) : ℚ)), []) := by
  rw [parseTermEmb, parseFactorEmb_divMarker (f + 1) hda ha hdb hb]
  show (match parseTermLoop (f + 2) true (.int (digitsVal (a :: as') : ℤ))
      ('/' :: 'S' :: b :: bs') with
    | none => none
    | some (v2, rem2) => some (promoteType true v2, rem2)) = _
  rw [parseTermLoop_div f _ hdb hb hb0Q]
  show some (promoteType true (.rat ((((digitsVal (a :: as') : ℤ)) : ℚ)
      / ((digitsVal (b :: bs') : ℤ) : ℚ)) false), []) = _
  rw [promoteType_true_rat_false]

theorem trim_ne_nil {a : Char} {l : List Char} (ha : isWS a = false) :
    trim (a :: l) ≠ [] := by
  unfold trim
  rw [List.dropWhile_cons, ha]
  simp only [Bool.false_eq_true, if_false]
  intro h
  have h' : (a :: l).reverse.dropWhile isWS = [] := by
    have := congrArg List.reverse h
    simpa using this
  have := List.dropWhile_eq_nil_iff.1 h' a (by simp)
  rw [ha] at this
  cases this

theorem parse_eval_no_ws {t : Bool} {a : Char} {l : List Char} {v : Value}
    (hws : ∀ c ∈ a :: l, isWS c = false)
    (h : parseExpressionEmb ((a :: l).length + 2) t (a :: l) = some (v, [])) :
    parse t (a :: l) = some v := by
  have hsp : ' ' ∉ a :: l := fun hm => absurd (hws ' ' hm) (by decide)
  rw [parse, if_neg (not_or.2 ⟨by simp, trim_ne_nil (hws a (by simp))⟩)]
  simp only [replaceSpaceE_of_no_space hsp, replaceSlashSpace_of_no_space hsp,
    filter_not_ws_of hws]
  rw [h]
  rfl

theorem promoteType_true_fracW (z : ℤ) (x q : ℚ) :
    promoteType true (if z = 1 then Value.rat x true else scalarOfRat q)
      = (if z = 1 then Value.rat x true else scalarOfRat q) := by
  by_cases h : z = 1
  · rw [if_pos h, promoteType_true_rat_true]
  · rw [if_neg h, promoteType_scalarOfRat]

/-- **C7.** The whitespace sentinel distinguishes fraction from division:
`a/b` (no space after the slash) parses as a single fraction literal — a
`Rational` carrying the `_explicitFraction` marker when the denominator is
`1`, the promoted exact quotient otherwise — while `a/ b` (slash then
space) parses as the division operation applied to the two integer
operands, yielding the promoted scalar quotient without the marker. -/
theorem claim_C7_fraction_vs_division (a b : Char) (as' bs' : List Char)
    (hda : isDigit a = true) (ha : as'.all isDigit = true)
    (hdb : isDigit b = true) (hb : bs'.all isDigit = true)
    (hb0 : (digitsVal (b :: bs') : ℤ) ≠ 0) :
    parse true (a :: (as' ++ '/' :: b :: bs'))
      = some (if (digitsVal (b :: bs') : ℤ) = 1
          then .rat ((digitsVal (a :: as') : ℤ) : ℚ) true
          else scalarOfRat (((digitsVal (a :: as') : ℤ) : ℚ)
            / ((digitsVal (b :: bs') : ℤ) : ℚ)))
    ∧ parse true (a :: (as' ++ '/' :: ' ' :: b :: bs'))
      = some (scalarOfRat (((digitsVal (a :: as') : ℤ) : ℚ)
          / ((digitsVal (b :: bs') : ℤ) : ℚ))) := by
  have hb0Q : ((digitsVal (b :: bs') : ℤ) : ℚ) ≠ 0 := by exact_mod_cast hb0
  have hspA : ' ' ∉ a :: as' := by
    intro hm
    rcases List.mem_cons.1 hm with h | h
    · exact isDigit_ne hda (by decide) h.symm
    · exact not_mem_of_all_digits (by decide) ha h
  have hspB : ' ' ∉ b :: bs' := by
    intro hm
    rcases List.mem_cons.1 hm with h | h
    · exact isDigit_ne hdb (by decide) h.symm
    · exact not_mem_of_all_digits (by decide) hb h
  have hslashA : '/' ∉ a :: as' := by
    intro hm
    rcases List.mem_cons.1 hm with h | h
    · exact isDigit_ne hda (by decide) h.symm
    · exact not_mem_of_all_digits (by decide) ha h
  constructor
  · apply parse_eval_no_ws
    · intro c hc
      rcases List.mem_cons.1 hc with h | h
      · exact h ▸ isWS_false_of_isDigit hda
      · rcases List.mem_append.1 h with h | h
        · exact isWS_false_of_isDigit (List.all_eq_true.1 ha c h)
        · rcases List.mem_cons.1 h with h | h
          · exact h ▸ (by decide)
          · rcases List.mem_cons.1 h with h | h
            · exact h ▸ isWS_false_of_isDigit hdb
            · exact isWS_false_of_isDigit (List.all_eq_true.1 hb c h)
    · have h0 := parseExpressionEmb_of ((a :: (as' ++ '/' :: b :: bs')).length)
        (parseTermEmb_fraction _ hda ha hdb hb hb0)
      rw [promoteType_true_fracW] at h0
      exact h0
  · have h1 : replaceSpaceE (a :: (as' ++ '/' :: ' ' :: b :: bs'))
        = a :: (as' ++ '/' :: ' ' :: b :: bs') := by
      have e : a :: (as' ++ '/' :: ' ' :: b :: bs')
          = (a :: as') ++ '/' :: ' ' :: b :: bs' := by simp
      rw [e, replaceSpaceE_append hspA (by simp), replaceSpaceE,
        if_neg (by decide), replaceSpaceE,
        if_neg (fun hand => absurd hand.2 (isDigit_ne hdb (by decide))),
        replaceSpaceE_of_no_space hspB]
    have h2 : replaceSlashSpace (a :: (as' ++ '/' :: ' ' :: b :: bs'))
        = a :: (as' ++ '/' :: 'S' :: b :: bs') := by
      have e : a :: (as' ++ '/' :: ' ' :: b :: bs')
          = (a :: as') ++ '/' :: ' ' :: b :: bs' := by simp
      rw [e, replaceSlashSpace_append hslashA (by simp), replaceSlashSpace,
        if_pos ⟨rfl, rfl⟩, replaceSlashSpace_of_no_space hspB]
      simp
    have hws2 : ∀ c ∈ a :: (as' ++ '/' :: 'S' :: b :: bs'), isWS c = false := by
      intro c hc
      rcases List.mem_cons.1 hc with h | h
      · exact h ▸ isWS_false_of_isDigit hda
      · rcases List.mem_append.1 h with h | h
        · exact isWS_false_of_isDigit (List.all_eq_true.1 ha c h)
        · rcases List.mem_cons.1 h with h | h
          · exact h ▸ (by decide)
          · rcases List.mem_cons.1 h with h | h
            · exact h ▸ (by decide)
            · rcases List.mem_cons.1 h with h | h
              · exact h ▸ isWS_false_of_isDigit hdb
              · exact isWS_false_of_isDigit (List.all_eq_true.1 hb c h)
    rw [parse, if_neg (not_or.2 ⟨by simp,
      trim_ne_nil (isWS_false_of_isDigit hda)⟩)]
    simp only [h1, h2, filter_not_ws_of hws2]
    rw [parseExpressionEmb_of _ (parseTermEmb_division _ hda ha hdb hb hb0Q)]
    rw [promoteType_scalarOfRat]
    rfl

/-- Witness for C7 at `3/1` (fraction literal with denominator one) and
`3/ 1` (division): the former keeps the `_explicitFraction` marker, the
latter promotes to `Integer 3`. -/
theorem claim_C7_witness :
    parse true ['3', '/', '1'] = some (.rat 3 true) ∧
    parse true ['3', '/', ' ', '1'] = some (.int 3) := by
  have h := claim_C7_fraction_vs_division '3' '1' [] [] (by decide) (by decide)
    (by decide) (by decide) (by decide)
  obtain ⟨h1, h2⟩ := h
  constructor
  · rw [show (['3', '/', '1'] : List Char)
      = '3' :: ([] ++ '/' :: '1' :: []) from rfl, h1]
    norm_num [show digitsVal ['3'] = 3 from rfl, show digitsVal ['1'] = 1 from rfl]
  · rw [show (['3', '/', ' ', '1'] : List Char)
      = '3' :: ([] ++ '/' :: ' ' :: '1' :: []) from rfl, h2]
    norm_num [show digitsVal ['3'] = 3 from rfl,
      show digitsVal ['1'] = 1 from rfl, scalarOfRat]

theorem parseNonRepeatingDecimal_digits {I F : List Char} (hI1 : I ≠ [])
    (hI : I.all isDigit = true) (hF1 : F ≠ []) (hF : F.all isDigit = true)
    (neg : Bool) :
    parseNonRepeatingDecimal (I ++ '.' :: F) neg
      = some (if neg then
          .interval ((-((digitsVal (I ++ F) : ℤ) * 10 + 5) : ℚ)
              / (((10 : ℤ) ^ (F.length + 1) : ℤ) : ℚ))
            ((-((digitsVal (I ++ F) : ℤ) * 10 - 5) : ℚ)
              / (((10 : ℤ) ^ (F.length + 1) : ℤ) : ℚ)) false false
        else
          .interval ((((digitsVal (I ++ F) : ℤ) * 10 - 5 : ℤ) : ℚ)
              / (((10 : ℤ) ^ (F.length + 1) : ℤ) : ℚ))
            ((((digitsVal (I ++ F) : ℤ) * 10 + 5 : ℤ) : ℚ)
              / (((10 : ℤ) ^ (F.length + 1) : ℤ) : ℚ)) false false) := by
  have hdotI : '.' ∉ I := not_mem_of_all_digits (by decide) hI
  have hdotF : '.' ∉ F := not_mem_of_all_digits (by decide) hF
  have hsplit : splitChar '.' (I ++ '.' :: F) = [I, F] := by
    rw [splitChar_append F hdotI, splitChar_not_mem hdotF]
  rw [parseNonRepeatingDecimal, hsplit]
  rw [if_neg (show ¬([I, F].length > 2) by simp)]
  simp only [List.headD_cons, if_neg hI1, List.getD_cons_succ,
    List.getD_cons_zero]
  rw [if_neg (not_not_intro ⟨hI1, hI, hF⟩), if_neg hF1]
  cases neg <;> rfl

theorem parseIntervalEmb_decimal_reduce {a b : Char} {as' bs' : List Char}
    (hda : isDigit a = true) (ha : as'.all isDigit = true)
    (hdb : isDigit b = true) (hb : bs'.all isDigit = true) (t : Bool) :
    parseIntervalEmb t (a :: (as' ++ '.' :: b :: bs'))
      = (if t then
          some (.rat (decimalStringVal (a :: as') (b :: bs')) false, [])
        else
          match parseNonRepeatingDecimal ((a :: as') ++ '.' :: b :: bs') false with
          | none => parseIntervalTail t (a :: (as' ++ '.' :: b :: bs'))
          | some v => some (v, [])) := by
  have hdA : ∀ c ∈ as', isDigit c = true := fun c hc => List.all_eq_true.1 ha c hc
  have hdB : ∀ c ∈ b :: bs', isDigit c = true := by
    intro c hc
    rcases List.mem_cons.1 hc with h | h
    · exact h ▸ hdb
    · exact List.all_eq_true.1 hb c h
  have hnot : ∀ x : Char, isDigit x = false → x ≠ '.' →
      x ∉ a :: (as' ++ '.' :: b :: bs') := by
    intro x hx hdot hm
    rcases List.mem_cons.1 hm with h | h
    · exact isDigit_ne hda hx h.symm
    · rcases List.mem_append.1 h with h | h
      · exact not_mem_of_all_digits hx ha h
      · rcases List.mem_cons.1 h with h | h
        · exact hdot h
        · rcases List.mem_cons.1 h with h | h
          · exact isDigit_ne hdb hx h.symm
          · exact not_mem_of_all_digits hx hb h
  have hbr := hnot '[' (by decide) (by decide)
  have htilde := hnot '~' (by decide) (by decide)
  have hhash := hnot '#' (by decide) (by decide)
  have hcolon := hnot ':' (by decide) (by decide)
  have hdotmem : '.' ∈ a :: (as' ++ '.' :: b :: bs') := by simp
  have hto : (a :: (as' ++ '.' :: b :: bs')).takeWhile isDigit = a :: as' := by
    rw [List.takeWhile_cons, if_pos hda,
      (takeWhile_append_stop '.' (b :: bs') hdA (by decide)).1]
  have hdropn : (a :: (as' ++ '.' :: b :: bs')).drop (a :: as').length
      = '.' :: b :: bs' := by
    rw [List.length_cons, List.drop_succ_cons, List.drop_left]
  have hna : ¬(a = '-') := isDigit_ne hda (by decide)
  have hcond : ¬(b = '.' ∨ b :: bs' = []) := by
    rintro (h | h)
    · exact isDigit_ne hdb (by decide) h
    · cases h
  rw [parseIntervalEmb, if_neg hbr]
  rw [hasSeq2_false_of_not_mem_snd htilde]
  simp only [Bool.false_eq_true, if_false]
  rw [if_pos ⟨hdotmem, hhash, hcolon⟩]
  simp only [List.headD_cons, if_neg hna, hto, hdropn]
  rw [if_neg hcond]
  simp only [takeWhile_all hdB, List.drop_length, decide_eq_false hna,
    if_neg hna,
    if_neg (fun hc : a :: as' = [] ∧ (b :: bs') = [] =>
      List.cons_ne_nil a as' hc.1)]

theorem parseIntervalEmb_decimal_true {a b : Char} {as' bs' : List Char}
    (hda : isDigit a = true) (ha : as'.all isDigit = true)
    (hdb : isDigit b = true) (hb : bs'.all isDigit = true) :
    parseIntervalEmb true (a :: (as' ++ '.' :: b :: bs'))
      = some (.rat (decimalStringVal (a :: as') (b :: bs')) false, []) := by
  rw [parseIntervalEmb_decimal_reduce hda ha hdb hb true]
  rfl

theorem parseIntervalEmb_decimal_false {a b : Char} {as' bs' : List Char}
    (hda : isDigit a = true) (ha : as'.all isDigit = true)
    (hdb : isDigit b = true) (hb : bs'.all isDigit = true) :
    parseIntervalEmb false (a :: (as' ++ '.' :: b :: bs'))
      = some (.interval
          (decimalStringVal (a :: as') (b :: bs')
            - 5 / 10 ^ ((b :: bs').length + 1))
          (decimalStringVal (a :: as') (b :: bs')
            + 5 / 10 ^ ((b :: bs').length + 1)) false false, []) := by
  have haI : (a :: as').all isDigit = true := by
    rw [List.all_cons, hda, ha]; rfl
  have hbF : (b :: bs').all isDigit = true := by
    rw [List.all_cons, hdb, hb]; rfl
  rw [parseIntervalEmb_decimal_reduce hda ha hdb hb false,
    parseNonRepeatingDecimal_digits (List.cons_ne_nil a as') haI
      (List.cons_ne_nil b bs') hbF false]
  simp only [Bool.false_eq_true, if_false]
  have h10 : ((10 : ℚ) ^ ((b :: bs').length + 1)) ≠ 0 := by positivity
  have h10b : ((10 : ℚ) ^ (b :: bs').length) ≠ 0 := by positivity
  rw [show ((((digitsVal ((a :: as') ++ (b :: bs')) : ℤ) * 10 - 5 : ℤ) : ℚ)
      / (((10 : ℤ) ^ ((b :: bs').length + 1) : ℤ) : ℚ))
      = decimalStringVal (a :: as') (b :: bs')
        - 5 / 10 ^ ((b :: bs').length + 1) by
    rw [digitsVal_append, decimalStringVal]
    push_cast
    field_simp
    ring]
  rw [show ((((digitsVal ((a :: as') ++ (b :: bs')) : ℤ) * 10 + 5 : ℤ) : ℚ)
      / (((10 : ℤ) ^ ((b :: bs').length + 1) : ℤ) : ℚ))
      = decimalStringVal (a :: as') (b :: bs')
        + 5 / 10 ^ ((b :: bs').length + 1) by
    rw [digitsVal_append, decimalStringVal]
    push_cast
    field_simp
    ring]

theorem parseFactorEmb_decimal (f : ℕ) {a b : Char} {as' bs' : List Char}
    (hda : isDigit a = true) (ha : as'.all isDigit = true)
    (hdb : isDigit b = true) (hb : bs'.all isDigit = true) (t : Bool) :
    parseFactorEmb (f + 1) t (a :: (as' ++ '.' :: b :: bs'))
      = (if t then
          some (.rat (decimalStringVal (a :: as') (b :: bs')) false, [])
        else
          some (.interval
            (decimalStringVal (a :: as') (b :: bs')
              - 5 / 10 ^ ((b :: bs').length + 1))
            (decimalStringVal (a :: as') (b :: bs')
              + 5 / 10 ^ ((b :: bs').length + 1)) false false, [])) := by
  have hnot : ∀ x : Char, isDigit x = false → x ≠ '.' →
      x ∉ a :: (as' ++ '.' :: b :: bs') := by
    intro x hx hdot hm
    rcases List.mem_cons.1 hm with h | h
    · exact isDigit_ne hda hx h.symm
    · rcases List.mem_append.1 h with h | h
      · exact not_mem_of_all_digits hx ha h
      · rcases List.mem_cons.1 h with h | h
        · exact hdot h
        · rcases List.mem_cons.1 h with h | h
          · exact isDigit_ne hdb hx h.symm
          · exact not_mem_of_all_digits hx hb h
  have hbr := hnot '[' (by decide) (by decide)
  rw [parseFactorEmb, if_neg (by simp),
    if_neg (show ¬((a :: (as' ++ '.' :: b :: bs')).headD ' ' = '(') by
      rw [List.headD_cons]; exact isDigit_ne hda (by decide)),
    if_neg (fun hc => hbr hc.1),
    if_neg (fun hc => absurd hc.1 (by
      rw [List.headD_cons]; exact isDigit_ne hda (by decide)))]
  cases t with
  | true =>
    rw [parseIntervalEmb_decimal_true hda ha hdb hb]
    rfl
  | false =>
    rw [parseIntervalEmb_decimal_false hda ha hdb hb]
    rfl

theorem parseFactorEmb_neg (f : ℕ) {t : Bool} {X : List Char} {v : Value}
    (hbr : '[' ∉ X) (hcolon : ':' ∉ X)
    (h : parseFactorEmb (f + 1) t X = some (v, [])) :
    parseFactorEmb (f + 2) t ('-' :: X)
      = some ((match t, v with
          | true, .int n => .int (-n)
          | true, .rat q ef => .rat (-q) ef
          | _, w => negateCompat w), []) := by
  show parseFactorEmb (f + 1 + 1) t ('-' :: X) = _
  rw [parseFactorEmb, if_neg (by simp),
    if_neg (show ¬(('-' :: X).headD ' ' = '(') by
      rw [List.headD_cons]; decide),
    if_neg (fun hc =>
      (List.mem_cons.1 hc.1).elim (fun e => absurd e (by decide)) hbr),
    if_pos ⟨rfl,
      fun hm => (List.mem_cons.1 hm).elim (fun e => absurd e (by decide)) hbr,
      fun hm => (List.mem_cons.1 hm).elim (fun e => absurd e (by decide)) hcolon⟩]
  simp only [List.tail_cons, h]
  cases t <;> cases v <;> rfl

/-- **C4.** A plain decimal literal `d.dddd` with `k` fractional digits:
in non-type-aware mode it parses to the half-unit uncertainty interval
`[value - 5*10^-(k+1), value + 5*10^-(k+1)]`, a leading `-` negating and
swapping the endpoints; in type-aware mode the same text parses to the
exact rational value (promoted to `Integer` when whole). -/
theorem claim_C4_decimal_literal (a b : Char) (as' bs' : List Char)
    (hda : isDigit a = true) (ha : as'.all isDigit = true)
    (hdb : isDigit b = true) (hb : bs'.all isDigit = true) :
    parse true (a :: (as' ++ '.' :: b :: bs'))
      = some (scalarOfRat (decimalStringVal (a :: as') (b :: bs')))
    ∧ parse false (a :: (as' ++ '.' :: b :: bs'))
      = some (.interval
          (decimalStringVal (a :: as') (b :: bs')
            - 5 / 10 ^ ((b :: bs').length + 1))
          (decimalStringVal (a :: as') (b :: bs')
            + 5 / 10 ^ ((b :: bs').length + 1)) false false)
    ∧ parse true ('-' :: a :: (as' ++ '.' :: b :: bs'))
      = some (scalarOfRat (-decimalStringVal (a :: as') (b :: bs')))
    ∧ parse false ('-' :: a :: (as' ++ '.' :: b :: bs'))
      = some (.interval
          (-(decimalStringVal (a :: as') (b :: bs')
            + 5 / 10 ^ ((b :: bs').length + 1)))
          (-(decimalStringVal (a :: as') (b :: bs')
            - 5 / 10 ^ ((b :: bs').length + 1))) false false) := by
  have hws : ∀ c ∈ a :: (as' ++ '.' :: b :: bs'), isWS c = false := by
    intro c hc
    rcases List.mem_cons.1 hc with h | h
    · exact h ▸ isWS_false_of_isDigit hda
    · rcases List.mem_append.1 h with h | h
      · exact isWS_false_of_isDigit (List.all_eq_true.1 ha c h)
      · rcases List.mem_cons.1 h with h | h
        · exact h ▸ (by decide)
        · rcases List.mem_cons.1 h with h | h
          · exact h ▸ isWS_false_of_isDigit hdb
          · exact isWS_false_of_isDigit (List.all_eq_true.1 hb c h)
  have hwsm : ∀ c ∈ '-' :: a :: (as' ++ '.' :: b :: bs'), isWS c = false := by
    intro c hc
    rcases List.mem_cons.1 hc with h | h
    · exact h ▸ (by decide)
    · exact hws c h
  have hnot : ∀ x : Char, isDigit x = false → x ≠ '.' →
      x ∉ a :: (as' ++ '.' :: b :: bs') := by
    intro x hx hdot hm
    rcases List.mem_cons.1 hm with h | h
    · exact isDigit_ne hda hx h.symm
    · rcases List.mem_append.1 h with h | h
      · exact not_mem_of_all_digits hx ha h
      · rcases List.mem_cons.1 h with h | h
        · exact hdot h
        · rcases List.mem_cons.1 h with h | h
          · exact isDigit_ne hdb hx h.symm
          · exact not_mem_of_all_digits hx hb h
  have hbrX := hnot '[' (by decide) (by decide)
  have hcolonX := hnot ':' (by decide) (by decide)
  refine ⟨?_, ?_, ?_, ?_⟩
  · have h0 := parseTermEmb_of (a :: (as' ++ '.' :: b :: bs')).length
      ((parseFactorEmb_decimal ((a :: (as' ++ '.' :: b :: bs')).length + 1)
        hda ha hdb hb true).trans (if_pos rfl))
    rw [promoteType_true_rat_false] at h0
    have h1 := parseExpressionEmb_of (a :: (as' ++ '.' :: b :: bs')).length h0
    rw [promoteType_scalarOfRat] at h1
    exact parse_eval_no_ws hws h1
  · have h0 := parseTermEmb_of (a :: (as' ++ '.' :: b :: bs')).length
      ((parseFactorEmb_decimal ((a :: (as' ++ '.' :: b :: bs')).length + 1)
        hda ha hdb hb false).trans (if_neg (by decide)))
    rw [promoteType_false] at h0
    have h1 := parseExpressionEmb_of (a :: (as' ++ '.' :: b :: bs')).length h0
    rw [promoteType_false] at h1
    exact parse_eval_no_ws hws h1
  · have hV := (parseFactorEmb_decimal ((a :: (as' ++ '.' :: b :: bs')).length + 1)
      hda ha hdb hb true).trans (if_pos rfl)
    have hF : parseFactorEmb ((a :: (as' ++ '.' :: b :: bs')).length + 1 + 2) true
        ('-' :: a :: (as' ++ '.' :: b :: bs'))
        = some (.rat (-decimalStringVal (a :: as') (b :: bs')) false, []) :=
      parseFactorEmb_neg ((a :: (as' ++ '.' :: b :: bs')).length + 1) hbrX hcolonX hV
    have h0 := parseTermEmb_of ((a :: (as' ++ '.' :: b :: bs')).length + 1) hF
    rw [promoteType_true_rat_false] at h0
    have h1 := parseExpressionEmb_of ((a :: (as' ++ '.' :: b :: bs')).length + 1) h0
    rw [promoteType_scalarOfRat] at h1
    exact parse_eval_no_ws hwsm h1
  · have hV := (parseFactorEmb_decimal ((a :: (as' ++ '.' :: b :: bs')).length + 1)
      hda ha hdb hb false).trans (if_neg (by decide))
    have hF : parseFactorEmb ((a :: (as' ++ '.' :: b :: bs')).length + 1 + 2) false
        ('-' :: a :: (as' ++ '.' :: b :: bs'))
        = some (.interval
            (-(decimalStringVal (a :: as') (b :: bs')
              + 5 / 10 ^ ((b :: bs').length + 1)))
            (-(decimalStringVal (a :: as') (b :: bs')
              - 5 / 10 ^ ((b :: bs').length + 1))) false false, []) :=
      parseFactorEmb_neg ((a :: (as' ++ '.' :: b :: bs')).length + 1) hbrX hcolonX hV
    have h0 := parseTermEmb_of ((a :: (as' ++ '.' :: b :: bs')).length + 1) hF
    rw [promoteType_false] at h0
    have h1 := parseExpressionEmb_of ((a :: (as' ++ '.' :: b :: bs')).length + 1) h0
    rw [promoteType_false] at h1
    exact parse_eval_no_ws hwsm h1

/-- Witness for C4 at `1.5`: type-aware parses give the exact `3/2` (and
`-3/2`), non-type-aware parses give the half-unit intervals
`[29/20, 31/20]` and `[-31/20, -29/20]`. -/
theorem claim_C4_witness :
    parse true ['1', '.', '5'] = some (.rat (3 / 2 : ℚ) false) ∧
    parse false ['1', '.', '5']
      = some (.interval (29 / 20 : ℚ) (31 / 20 : ℚ) false false) ∧
    parse true ['-', '1', '.', '5'] = some (.rat (-(3 / 2) : ℚ) false) ∧
    parse false ['-', '1', '.', '5']
      = some (.interval (-(31 / 20) : ℚ) (-(29 / 20) : ℚ) false false) := by
  have h := claim_C4_decimal_literal '1' '5' [] [] (by decide) (by decide)
    (by decide) (by decide)
  have hx : decimalStringVal ['1'] ['5'] = 3 / 2 := by
    rw [decimalStringVal]
    norm_num [show digitsVal ['1'] = 1 from rfl, show digitsVal ['5'] = 5 from rfl]
  obtain ⟨h1, h2, h3, h4⟩ := h
  refine ⟨?_, ?_, ?_, ?_⟩
  · rw [show (['1', '.', '5'] : List Char) = '1' :: ([] ++ '.' :: '5' :: []) from
      rfl, h1, hx, scalarOfRat, if_neg (by norm_num)]
  · rw [show (['1', '.', '5'] : List Char) = '1' :: ([] ++ '.' :: '5' :: []) from
      rfl, h2, hx]
    norm_num
  · rw [show (['-', '1', '.', '5'] : List Char)
      = '-' :: '1' :: ([] ++ '.' :: '5' :: []) from rfl, h3, hx, scalarOfRat,
      if_neg (by norm_num)]
  · rw [show (['-', '1', '.', '5'] : List Char)
      = '-' :: '1' :: ([] ++ '.' :: '5' :: []) from rfl, h4, hx]
    norm_num

theorem promoteType_skip (lo hi : ℚ) (e : Bool) :
    promoteType true (.interval lo hi e true) = .interval lo hi e true := rfl

theorem starStar_on_two_three :
    starStarStep (.int 2) 3 = .interval 8 8 false true := by
  norm_num [starStarStep, mpowQ, Value.toRat]

theorem parseFactorEmb_twostarthree :
    parseFactorEmb ((['2', '*', '*', '3'] : List Char).length + 2) true
      ['2', '*', '*', '3'] = some (starStarStep (.int 2) 3, []) := by
  have hIT : parseIntervalTail true ['2', '*', '*', '3']
      = some (.int 2, ['*', '*', '3']) := by
    have h := parseIntervalTail_digits
      (show isDigit '2' = true by decide)
      (show ([] : List Char).all isDigit = true by decide)
      (show TailOk ['*', '*', '3'] from
        ⟨by decide, by decide, by decide, by decide, Or.inr (by decide)⟩)
    exact h
  show parseFactorEmb (5 + 1) true ['2', '*', '*', '3'] = _
  rw [parseFactorEmb, if_neg (by decide), if_neg (by decide),
    if_neg (by decide), if_neg (by decide),
    parseIntervalEmb_noDot (by decide) (by decide) (by decide), hIT]
  rfl

theorem parse_twostarthree :
    parse true ['2', '*', '*', '3'] = some (.interval 8 8 false true) := by
  have h0 := parseTermEmb_of (['2', '*', '*', '3'] : List Char).length
    parseFactorEmb_twostarthree
  rw [show promoteType true (starStarStep (.int 2) 3)
    = starStarStep (.int 2) 3 from rfl] at h0
  have h1 := parseExpressionEmb_of (['2', '*', '*', '3'] : List Char).length h0
  rw [show promoteType true (starStarStep (.int 2) 3)
    = starStarStep (.int 2) 3 from rfl] at h1
  rw [starStar_on_two_three] at h1
  exact parse_eval_no_ws (by decide) h1

/-- **C5.** Every result of the `**` operator carries the `_skipPromotion`
flag, the promotion step leaves a skip-promotion interval untouched, and in
particular `2**3` parses (type-aware defaults) to the point interval
`[8, 8]` that stays an interval instead of promoting to `Integer 8`. -/
theorem claim_C5_star_star_skip_promotion :
    (∀ (v : Value) (k : ℤ), (starStarStep v k).skipPromotion = true) ∧
    (∀ (lo hi : ℚ) (e : Bool),
      promoteType true (.interval lo hi e true) = .interval lo hi e true) ∧
    parse true ['2', '*', '*', '3'] = some (.interval 8 8 false true) :=
  ⟨fun _ _ => rfl, fun _ _ _ => rfl, parse_twostarthree⟩

theorem factorialStep_isSome (v : Value) :
    (factorialStep v).isSome = true ↔ nonnegIntegerOperand v := by
  cases v with
  | int n =>
    by_cases h : 0 ≤ n <;>
      simp [factorialStep, libFactorial, nonnegIntegerOperand, h]
  | rat q ef =>
    by_cases hden : q.den = 1 <;> by_cases hnum : 0 ≤ q.num <;>
      simp [factorialStep, libFactorial, nonnegIntegerOperand, hden, hnum]
  | interval lo hi e s =>
    rcases eq_or_ne lo hi with hpt | hpt
    · subst hpt
      by_cases hden : lo.den = 1 <;> by_cases hq : (0 : ℚ) ≤ lo <;>
        simp [factorialStep, libFactorial, nonnegIntegerOperand, hden, hq,
          Rat.num_nonneg]
    · simp [factorialStep, libFactorial, nonnegIntegerOperand, hpt]

theorem doubleFactorialStep_isSome (v : Value) :
    (doubleFactorialStep v).isSome = true ↔ nonnegIntegerOperand v := by
  cases v with
  | int n =>
    by_cases h : 0 ≤ n <;>
      simp [doubleFactorialStep, libDoubleFactorial, nonnegIntegerOperand, h]
  | rat q ef =>
    by_cases hden : q.den = 1 <;> by_cases hnum : 0 ≤ q.num <;>
      simp [doubleFactorialStep, libDoubleFactorial, nonnegIntegerOperand,
        hden, hnum]
  | interval lo hi e s =>
    rcases eq_or_ne lo hi with hpt | hpt
    · subst hpt
      by_cases hden : lo.den = 1 <;> by_cases hq : (0 : ℚ) ≤ lo <;>
        simp [doubleFactorialStep, libDoubleFactorial, nonnegIntegerOperand,
          hden, hq, Rat.num_nonneg]
    · simp [doubleFactorialStep, libDoubleFactorial, nonnegIntegerOperand,
        hpt]

theorem parseFactorEmb_bang_none (f : ℕ) {t : Bool} {expr : List Char}
    {v : Value}
    (hne : expr ≠ []) (hpar : expr.headD ' ' ≠ '(')
    (hbr : ¬('[' ∈ expr ∧ ']' ∈ expr))
    (hminus : ¬(expr.headD ' ' = '-' ∧ '[' ∉ expr ∧ ':' ∉ expr))
    (hIE : parseIntervalEmb t expr = some (v, ['!']))
    (hfs : factorialStep v = none) :
    parseFactorEmb (f + 1) t expr = none := by
  rw [parseFactorEmb, if_neg (by simpa using hne), if_neg hpar, if_neg hbr,
    if_neg hminus, hIE]
  simp only [if_neg (show ¬((['!'] : List Char).headD ' ' = 'E' ∨
      (['!'] : List Char).take 2 = ['T', 'E'] ∨
      (['!'] : List Char).take 2 = ['_', '^']) by decide),
    if_neg (show ¬((['!'] : List Char).take 2 = ['!', '!']) by decide),
    if_pos (show (['!'] : List Char).headD ' ' = '!' by decide), hfs]

theorem parseIntervalTail_digits_false {a : Char} {as' rest : List Char}
    (hda : isDigit a = true) (ha : as'.all isDigit = true) (ht : TailOk rest) :
    parseIntervalTail false (a :: (as' ++ rest))
      = some (.interval ((digitsVal (a :: as') : ℤ) : ℚ)
          ((digitsVal (a :: as') : ℤ) : ℚ) false false, rest) := by
  have hE : rest.headD ' ' ≠ 'E' := by
    rcases ht.2.2.2.2 with h | h
    · subst h; decide
    · exact h.2.2.2
  have hC : rest.headD ' ' ≠ ':' :=
    headD_ne_of_not_mem (by decide) ht.2.2.2.1
  rw [parseIntervalTail, parseRationalEmb_digits_tail hda ha ht]
  simp only [if_neg hE, if_neg hC, Bool.false_eq_true, if_false]
  rfl

theorem parse_three_bang : parse true ['3', '!'] = some (.int 6) := by
  have hIT : parseIntervalTail true ['3', '!'] = some (.int 3, ['!']) :=
    parseIntervalTail_digits (show isDigit '3' = true by decide)
      (show ([] : List Char).all isDigit = true by decide)
      (show TailOk ['!'] from
        ⟨by decide, by decide, by decide, by decide, Or.inr (by decide)⟩)
  have hfac : parseFactorEmb ((['3', '!'] : List Char).length + 2) true
      ['3', '!'] = some (.int 6, []) := by
    show parseFactorEmb (3 + 1) true ['3', '!'] = _
    rw [parseFactorEmb, if_neg (by decide), if_neg (by decide),
      if_neg (by decide), if_neg (by decide),
      parseIntervalEmb_noDot (by decide) (by decide) (by decide), hIT]
    rfl
  have h0 := parseTermEmb_of (['3', '!'] : List Char).length hfac
  have h1 := parseExpressionEmb_of (['3', '!'] : List Char).length h0
  exact parse_eval_no_ws (by decide) h1

theorem parse_three_bangbang : parse true ['3', '!', '!'] = some (.int 3) := by
  have hIT : parseIntervalTail true ['3', '!', '!'] = some (.int 3, ['!', '!']) :=
    parseIntervalTail_digits (show isDigit '3' = true by decide)
      (show ([] : List Char).all isDigit = true by decide)
      (show TailOk ['!', '!'] from
        ⟨by decide, by decide, by decide, by decide, Or.inr (by decide)⟩)
  have hfac : parseFactorEmb ((['3', '!', '!'] : List Char).length + 2) true
      ['3', '!', '!'] = some (.int 3, []) := by
    show parseFactorEmb (4 + 1) true ['3', '!', '!'] = _
    rw [parseFactorEmb, if_neg (by decide), if_neg (by decide),
      if_neg (by decide), if_neg (by decide),
      parseIntervalEmb_noDot (by decide) (by decide) (by decide), hIT]
    rfl
  have h0 := parseTermEmb_of (['3', '!', '!'] : List Char).length hfac
  have h1 := parseExpressionEmb_of (['3', '!', '!'] : List Char).length h0
  exact parse_eval_no_ws (by decide) h1

theorem parse_three_bang_compat :
    parse false ['3', '!'] = some (.interval 6 6 false false) := by
  have hIT : parseIntervalTail false ['3', '!']
      = some (.interval ((3 : ℤ) : ℚ) ((3 : ℤ) : ℚ) false false, ['!']) :=
    parseIntervalTail_digits_false (show isDigit '3' = true by decide)
      (show ([] : List Char).all isDigit = true by decide)
      (show TailOk ['!'] from
        ⟨by decide, by decide, by decide, by decide, Or.inr (by decide)⟩)
  have hfac : parseFactorEmb ((['3', '!'] : List Char).length + 2) false
      ['3', '!'] = some (.interval 6 6 false false, []) := by
    show parseFactorEmb (3 + 1) false ['3', '!'] = _
    rw [parseFactorEmb, if_neg (by decide), if_neg (by decide),
      if_neg (by decide), if_neg (by decide),
      parseIntervalEmb_noDot (by decide) (by decide) (by decide), hIT]
    rfl
  have h0 := parseTermEmb_of (['3', '!'] : List Char).length hfac
  have h1 := parseExpressionEmb_of (['3', '!'] : List Char).length h0
  exact parse_eval_no_ws (by decide) h1

theorem parseTermEmb_none (f : ℕ) {t : Bool} {expr : List Char}
    (h : parseFactorEmb (f + 2) t expr = none) :
    parseTermEmb (f + 2) t expr = none := by
  rw [parseTermEmb, h]

theorem parseExpressionEmb_none (f : ℕ) {t : Bool} {expr : List Char}
    (h : parseTermEmb (f + 2) t expr = none) :
    parseExpressionEmb (f + 2) t expr = none := by
  rw [parseExpressionEmb, h]

theorem parse_eval_no_ws_none {t : Bool} {a : Char} {l : List Char}
    (hws : ∀ c ∈ a :: l, isWS c = false)
    (h : parseExpressionEmb ((a :: l).length + 2) t (a :: l) = none) :
    parse t (a :: l) = none := by
  have hsp : ' ' ∉ a :: l := fun hm => absurd (hws ' ' hm) (by decide)
  rw [parse, if_neg (not_or.2 ⟨by simp, trim_ne_nil (hws a (by simp))⟩)]
  simp only [replaceSpaceE_of_no_space hsp, replaceSlashSpace_of_no_space hsp,
    filter_not_ws_of hws]
  rw [h]

theorem parse_half_bang : parse true ['0', '.', '5', '!'] = none := by
  have hIE : parseIntervalEmb true ['0', '.', '5', '!']
      = some (.rat (decimalStringVal ['0'] ['5']) false, ['!']) := rfl
  have hq : decimalStringVal ['0'] ['5'] = 1 / 2 := by
    rw [decimalStringVal]
    norm_num [show digitsVal ['0'] = 0 from rfl,
      show digitsVal ['5'] = 5 from rfl]
  have hden : (decimalStringVal ['0'] ['5']).den ≠ 1 := by
    rw [hq]; norm_num
  have hfs : factorialStep (.rat (decimalStringVal ['0'] ['5']) false)
      = none := by
    simp [factorialStep, hden]
  have hfac : parseFactorEmb ((['0', '.', '5', '!'] : List Char).length + 2)
      true ['0', '.', '5', '!'] = none := by
    show parseFactorEmb (5 + 1) true ['0', '.', '5', '!'] = _
    exact parseFactorEmb_bang_none 5 (by decide) (by decide) (by decide)
      (by decide) hIE hfs
  have h0 := parseTermEmb_none (['0', '.', '5', '!'] : List Char).length hfac
  have h1 := parseExpressionEmb_none (['0', '.', '5', '!'] : List Char).length h0
  exact parse_eval_no_ws_none (by decide) h1

/-- **C8.** The factorial operators `!` and `!!` succeed exactly on
non-negative integer operands — an `Integer`, an integer-valued
`Rational`, or a point interval on a non-negative integer — and any other
operand makes the parse fail; concretely `3!`, `3!!` succeed (the compat
point interval `[3,3]!` too) while the non-integer `0.5!` errors. -/
theorem claim_C8_factorial_domain :
    (∀ v : Value, (factorialStep v).isSome = true ↔ nonnegIntegerOperand v) ∧
    (∀ v : Value,
      (doubleFactorialStep v).isSome = true ↔ nonnegIntegerOperand v) ∧
    parse true ['3', '!'] = some (.int 6) ∧
    parse true ['3', '!', '!'] = some (.int 3) ∧
    parse false ['3', '!'] = some (.interval 6 6 false false) ∧
    parse true ['0', '.', '5', '!'] = none :=
  ⟨factorialStep_isSome, doubleFactorialStep_isSome, parse_three_bang,
    parse_three_bangbang, parse_three_bang_compat, parse_half_bang⟩

end RatMath

